import Mathlib

/-!
Shallow embedding of the term-extraction pipeline
(`run_extract_terms.py`, pass 1) and the refinement filter
(`run_microfix_outputs.py`, pass 2).

Text is modelled as `List Char` (Python `str` indexing and slicing is by
code point, exactly like a character list).  Python's `sorted` is a stable
sort; any stable sort computes the same list for a total transitive
comparison, so it is modelled by `List.insertionSort` (which inserts later
elements after earlier ties, i.e. is stable).  Python `\d`, `\s`, `str.strip`
are modelled on the character repertoire that reaches these functions
(the page text is NFKC-normalised with NBSP and ideographic space already
replaced by ASCII space in `_clean_text`).

The external collaborators (the PDF text extractor and the janome
tokenizer) are inputs of the model: a `Doc` carries its page texts and the
token stream of each page, a `Token` carries the surface and the first two
part-of-speech fields.  Unicode NFKC normalisation is an abstract parameter
`nfkc : Str → Str` of the pipeline functions.
-/

abbrev Str := List Char

/-- Whitespace for Python `str.strip()` / `\s` on the character repertoire
reaching this pipeline (see module comment). -/
def isPySpace (c : Char) : Bool :=
  c = ' ' || c = '\t' || c = '\n' || c = '\r' || c = '\x0b' || c = '\x0c'

def pyStripLeftBy (p : Char → Bool) (s : Str) : Str := s.dropWhile p

def pyStripRightBy (p : Char → Bool) (s : Str) : Str :=
  (s.reverse.dropWhile p).reverse

/-- Python `s.strip(chars)`: drop the characters satisfying `p` from both ends. -/
def pyStripBy (p : Char → Bool) (s : Str) : Str :=
  pyStripRightBy p (pyStripLeftBy p s)

/-- Python `s.strip()`. -/
def pyStrip (s : Str) : Str := pyStripBy isPySpace s

/-- The connector characters `"・-－‐/／"` used in `.strip("・-－‐/／")`. -/
def connectorChars : List Char := ['・', '-', '－', '‐', '/', '／']

def isConnectorChar (c : Char) : Bool := connectorChars.contains c

/-- Python `s.strip("・-－‐/／")`. -/
def stripConnectors (s : Str) : Str := pyStripBy isConnectorChar s

/-- Python `needle in hay` (substring containment). -/
def containsSub : Str → Str → Bool
  | n, [] => n.isEmpty
  | n, c :: rest => n.isPrefixOf (c :: rest) || containsSub n rest

/-- Python `s.endswith(t)`. -/
def pyEndsWith (t s : Str) : Bool := t.isSuffixOf s

def isDigitChar (c : Char) : Bool := c.isDigit

/-- ASCII `[A-Za-z0-9]`. -/
def isAlnumChar (c : Char) : Bool := c.isAlpha || c.isDigit

/-- Python `re.fullmatch(r"[A-Za-z0-9]+", s)`. -/
def isAlnumStr (s : Str) : Bool := s ≠ [] && s.all isAlnumChar

/-- Lexicographic code-point order on strings, Python's `<=` on `str`. -/
def strLe : Str → Str → Bool
  | [], _ => true
  | _ :: _, [] => false
  | a :: as, b :: bs => if a = b then strLe as bs else decide (a < b)

theorem strLe_total (a b : Str) : strLe a b = true ∨ strLe b a = true := by
  induction a generalizing b with
  | nil => left; rfl
  | cons c as ih =>
    cases b with
    | nil => right; rfl
    | cons d bs =>
      by_cases h : c = d
      · subst h
        rcases ih bs with h' | h'
        · left; simpa [strLe] using h'
        · right; simpa [strLe] using h'
      · rcases lt_trichotomy c d with hlt | heq | hgt
        · left; simp [strLe, h, hlt]
        · exact absurd heq h
        · right
          have h' : ¬ d = c := fun e => h e.symm
          simp [strLe, h', hgt]

theorem strLe_trans {a b c : Str} (h1 : strLe a b = true) (h2 : strLe b c = true) :
    strLe a c = true := by
  induction a generalizing b c with
  | nil => rfl
  | cons x as ih =>
    cases b with
    | nil => simp [strLe] at h1
    | cons y bs =>
      cases c with
      | nil => simp [strLe] at h2
      | cons z cs =>
        by_cases hxy : x = y
        · subst hxy
          by_cases hyz : x = z
          · subst hyz
            simp only [strLe, if_pos rfl] at h1 h2 ⊢
            exact ih h1 h2
          · simp only [strLe, if_pos rfl] at h1
            simpa [strLe, hyz] using h2
        · simp only [strLe, if_neg hxy, decide_eq_true_eq] at h1
          by_cases hyz : y = z
          · subst hyz
            simp [strLe, hxy, h1]
          · simp only [strLe, if_neg hyz, decide_eq_true_eq] at h2
            have hxz : x < z := lt_trans h1 h2
            simp [strLe, ne_of_lt hxz, hxz]

namespace ExtractTerms

/-! ## Constants and regular expressions of `run_extract_terms.py` -/

def MAX_TERMS_PER_COMPANY : Nat := 10000
def MAX_TERM_CHARS : Nat := 40
def MIN_TERM_CHARS : Nat := 2

def STOPWORDS : List Str :=
  [("当社").data, ("本書").data, ("重要").data, ("内容").data, ("場合").data,
   ("以下").data, ("なお").data, ("また").data, ("及び").data, ("並びに").data,
   ("その他").data, ("各").data, ("等").data]

/-- The `CONNECTORS` set of one-character surfaces. -/
def CONNECTORS : List Str :=
  [['・'], ['-'], ['－'], ['‐'], ['/'], ['／']]

/-- `re.fullmatch(r"^\d+$", s)` (`RE_ONLY_DIGITS`). -/
def reOnlyDigits (s : Str) : Bool := s ≠ [] && s.all isDigitChar

/-- `RE_ONLY_NUM_PUNCT = ^[\d,.\-–—ー]+$` (pass 1 variant). -/
def reOnlyNumPunct1 (s : Str) : Bool :=
  s ≠ [] && s.all (fun c => isDigitChar c || c = ',' || c = '.' || c = '-' || c = '–' || c = '—' || c = 'ー')

/-- `RE_ONLY_HIRAGANA = ^[ぁ-ゖ]+$`: code points U+3041..U+3096. -/
def isHiraganaChar (c : Char) : Bool := 0x3041 ≤ c.val && c.val ≤ 0x3096

def reOnlyHiragana (s : Str) : Bool := s ≠ [] && s.all isHiraganaChar

/-- Try `lo` to `hi` leading digits, then continue with `k` on the rest
(existence semantics of a backtracking `\d{lo,hi}`). -/
def digitsThen (lo hi : Nat) (k : Str → Bool) (s : Str) : Bool :=
  (List.range (hi + 1)).any (fun n =>
    lo ≤ n && (s.take n).length = n && (s.take n).all isDigitChar && k (s.drop n))

def headIsThen (c : Char) (k : Str → Bool) : Str → Bool
  | [] => false
  | d :: rest => d = c && k rest

/-- `RE_DATE_LIKE` full match:
`^(\d{4}年\d{1,2}月\d{1,2}日|\d{4}/\d{1,2}/\d{1,2}|\d{4}-\d{1,2}-\d{1,2})$`. -/
def reDateLike (s : Str) : Bool :=
  digitsThen 4 4 (headIsThen '年' (digitsThen 1 2 (headIsThen '月'
    (digitsThen 1 2 (headIsThen '日' (fun r => r = [])))))) s
  || digitsThen 4 4 (headIsThen '/' (digitsThen 1 2 (headIsThen '/'
      (digitsThen 1 2 (fun r => r = []))))) s
  || digitsThen 4 4 (headIsThen '-' (digitsThen 1 2 (headIsThen '-'
      (digitsThen 1 2 (fun r => r = []))))) s

/-- `RE_SECTION_LIKE` full match: `^(第?\d+(章|節|項|期)|\d+(章|節|項))$`.
The `第` of the first alternative is optional, so that alternative also
matches `\d+期` (e.g. `24期`) with no leading `第`; the second alternative
is then subsumed by the first. -/
def reSectionLike (s : Str) : Bool :=
  (match s with
   | '第' :: rest =>
       digitsThen 1 rest.length (fun r =>
         r = ['章'] || r = ['節'] || r = ['項'] || r = ['期']) rest
   | _ => false)
  || digitsThen 1 s.length (fun r =>
       r = ['章'] || r = ['節'] || r = ['項'] || r = ['期']) s

/-- Unicode word character (`\w`, i.e. letters, digits and underscore)
restricted to the scripts occurring in this pipeline: ASCII alphanumerics,
underscore, hiragana letters and iteration marks, katakana letters with the
prolonged sound mark and iteration marks — but not the middle dot `・`
(U+30FB) nor the voicing marks, which are punctuation/symbols and non-word
for Python's `\w` — CJK unified ideographs, and fullwidth alphanumerics. -/
def isWordChar (c : Char) : Bool :=
  isAlnumChar c || c = '_'
  || (0x3041 ≤ c.val && c.val ≤ 0x3096)    -- hiragana letters
  || (0x309D ≤ c.val && c.val ≤ 0x309F)    -- hiragana iteration marks, ゟ
  || (0x30A1 ≤ c.val && c.val ≤ 0x30FA)    -- katakana letters
  || (0x30FC ≤ c.val && c.val ≤ 0x30FF)    -- ー, iteration marks, ヿ
  || (0x4E00 ≤ c.val && c.val ≤ 0x9FFF)    -- CJK unified ideographs
  || (0x3400 ≤ c.val && c.val ≤ 0x4DBF)    -- CJK extension A
  || (0xFF10 ≤ c.val && c.val ≤ 0xFF19)
  || (0xFF21 ≤ c.val && c.val ≤ 0xFF3A)
  || (0xFF41 ≤ c.val && c.val ≤ 0xFF5A)

/-- `re.fullmatch(r"[\W_]+", s)`: every character is a non-word character or
an underscore, and the string is non-empty. -/
def reAllNonWord (s : Str) : Bool :=
  s ≠ [] && s.all (fun c => !isWordChar c || c = '_')

/-- Python `str.lower` on the characters relevant to the `"http"` check
(ASCII case folding; non-ASCII lowering cannot produce `"http"`). -/
def pyLower (s : Str) : Str := s.map Char.toLower

/-! ## Tokenizer-facing segmentation (`_is_noun_token`, `_is_termish_surface`,
`extract_candidates` / `flush_segment`) -/

/-- A janome token: surface plus the first two `part_of_speech` fields. -/
structure Token where
  surface : Str
  pos1 : Str
  pos2 : Str
deriving DecidableEq, Repr

/-- `_is_noun_token`: major tag `名詞`, minor tag not in `{数, 非自立, 代名詞, 接尾}`. -/
def isNounToken (t : Token) : Bool :=
  t.pos1 = ("名詞").data
  && !(t.pos2 = ("数").data || t.pos2 = ("非自立").data
       || t.pos2 = ("代名詞").data || t.pos2 = ("接尾").data)

/-- `_is_termish_surface`: non-empty, and a connector symbol or alphanumeric-only. -/
def isTermishSurface (s : Str) : Bool :=
  s ≠ [] && (CONNECTORS.contains s || isAlnumStr s)

inductive Kind where
  | noun
  | connector
deriving DecidableEq, Repr

/-- Token classification of `extract_candidates` (lines 208-212): nouns keep
kind `noun`; term-ish surfaces are `noun` when alphanumeric-only, else
`connector`; anything else is a boundary (`none`). -/
def tokenKind (t : Token) : Option Kind :=
  if isNounToken t then some Kind.noun
  else if isTermishSurface t.surface then
    some (if isAlnumStr t.surface then Kind.noun else Kind.connector)
  else none

/-- `_join_surfaces`: `"".join(surfaces).strip()`. -/
def joinSurfaces (ws : List Str) : Str := pyStrip ws.flatten

/-- The phrase built by the inner `j` loop of `flush_segment` over one
window: `_join_surfaces(parts).strip("・-－‐/／")`.  In the source the
variable `phrase` is reassigned on every iteration of the `j` loop and read
only after the loop, so its final value is this expression applied to the
whole window. -/
def phraseOf (w : List (Str × Kind)) : Str :=
  stripConnectors (joinSurfaces (w.map Prod.fst))

/-- The `noun_count` accumulated by the inner `j` loop over one window. -/
def nounCountOf (w : List (Str × Kind)) : Nat :=
  (w.filter (fun p => p.2 = Kind.noun)).length

/-- Candidates appended for the loop position holding token `sk` with the
rest of the run `rest`: the bare token when it is a non-connector noun, and
then the phrase of the maximal window `(sk :: rest).take 6` when that window
holds at least two nouns and the stripped phrase is non-empty and at most
`MAX_TERM_CHARS` characters. -/
def emitAt (sk : Str × Kind) (rest : List (Str × Kind)) : List Str :=
  (if sk.2 = Kind.noun ∧ ¬ CONNECTORS.contains sk.1 then [sk.1] else [])
  ++ (let w := (sk :: rest).take 6
      if 2 ≤ nounCountOf w ∧ phraseOf w ≠ [] ∧ (phraseOf w).length ≤ MAX_TERM_CHARS
      then [phraseOf w] else [])

/-- `flush_segment`: iterate over the positions of the run, collecting the
emissions of `emitAt` in order. -/
def flushSegment : List (Str × Kind) → List Str
  | [] => []
  | sk :: rest => emitAt sk rest ++ flushSegment rest

/-- The segment-accumulating loop of `extract_candidates`: boundary tokens
flush the current run, others are appended with their kind. -/
def extractCandidatesAux : List Token → List (Str × Kind) → List Str
  | [], seg => flushSegment seg
  | t :: ts, seg =>
      match tokenKind t with
      | none => flushSegment seg ++ extractCandidatesAux ts []
      | some k => extractCandidatesAux ts (seg ++ [(t.surface, k)])

/-- `extract_candidates`, taking the page's token stream as input (the
tokenizer is an external collaborator; text chunking only affects how that
stream is produced). -/
def extractCandidates (tokens : List Token) : List Str :=
  extractCandidatesAux tokens []

/-! ## Pass-1 candidate filter (`_looks_bad`) -/

/-- `_looks_bad(term, company)`.  The Python function is a chain of
early-`return True` tests and a final `return False`; that chain is the
disjunction below.  `nfkc` is the abstract NFKC normalisation, applied to
`company` exactly as in the source. -/
def looksBad (nfkc : Str → Str) (term company : Str) : Bool :=
  let t := pyStrip term
  let cn := nfkc company
  term = []
  || t = []
  || t.length < MIN_TERM_CHARS || MAX_TERM_CHARS < t.length
  || STOPWORDS.contains t
  || reOnlyDigits t
  || reOnlyNumPunct1 t
  || reOnlyHiragana t
  || reDateLike t
  || reSectionLike t
  || containsSub (("http").data) (pyLower t)
  || containsSub (("株式会社").data) t
  || t = cn
  || (cn ≠ [] && containsSub cn t && t.length ≤ cn.length + 4)
  || reAllNonWord t

/-! ## Frequency aggregation and ranking (`process_company_dir`) -/

/-- One `counter[term] += 1` step of a Python `Counter`: an existing key is
bumped in place, a new key is appended at the end (insertion order). -/
def counterBump (m : List (Str × Nat)) (t : Str) : List (Str × Nat) :=
  match m with
  | [] => [(t, 1)]
  | (k, v) :: rest => if k = t then (k, v + 1) :: rest else (k, v) :: counterBump rest t

/-- Ranking key of `counter.most_common()`: by count descending; Python's
sort is stable, so ties keep insertion order. -/
def cntGE (a b : Str × Nat) : Prop := b.2 ≤ a.2

instance : DecidableRel cntGE := fun a b => Nat.decLe b.2 a.2

instance : IsTotal (Str × Nat) cntGE := ⟨fun a b => Nat.le_total b.2 a.2⟩

instance : IsTrans (Str × Nat) cntGE := ⟨fun _ _ _ h1 h2 => Nat.le_trans h2 h1⟩

/-- `counter.most_common()` (stable sort by count descending). -/
def mostCommon (m : List (Str × Nat)) : List (Str × Nat) :=
  List.insertionSort cntGE m

/-- `counter.most_common(MAX_TERMS_PER_COMPANY)[-1][1]`, the count at the
cap-th rank; the source only evaluates it when `len(counter) > cap`, so the
default is never used then. -/
def cutoffCount (m : List (Str × Nat)) : Nat :=
  (((mostCommon m).take MAX_TERMS_PER_COMPANY).getLastD ([], 0)).2

/-- The key `lambda kv: (-kv[1], kv[0])` of the final sort: count
descending, then word ascending in code-point order. -/
def rankLE (a b : Str × Nat) : Prop :=
  b.2 < a.2 ∨ (a.2 = b.2 ∧ strLe a.1 b.1 = true)

instance : DecidableRel rankLE := fun a b =>
  inferInstanceAs (Decidable (b.2 < a.2 ∨ (a.2 = b.2 ∧ strLe a.1 b.1 = true)))

instance : IsTotal (Str × Nat) rankLE := by
  refine ⟨fun a b => ?_⟩
  rcases Nat.lt_trichotomy a.2 b.2 with h | h | h
  · right; left; exact h
  · rcases strLe_total a.1 b.1 with h' | h'
    · left; right; exact ⟨h, h'⟩
    · right; right; exact ⟨h.symm, h'⟩
  · left; left; exact h

instance : IsTrans (Str × Nat) rankLE := by
  refine ⟨fun a b c h1 h2 => ?_⟩
  rcases h1 with h1 | ⟨e1, s1⟩
  · rcases h2 with h2 | ⟨e2, s2⟩
    · left; exact Nat.lt_trans h2 h1
    · left; exact e2 ▸ h1
  · rcases h2 with h2 | ⟨e2, s2⟩
    · left; exact e1 ▸ h2
    · right; exact ⟨e1.trans e2, strLe_trans s1 s2⟩

/-- Lines 422-431 of `run_extract_terms.py`: when the counter holds more
than the cap and the cap-th ranked count is at most 1, restrict to counts
at least 2; then sort by `(-count, word)` and keep the first cap entries. -/
def selectPairs (m : List (Str × Nat)) : List (Str × Nat) :=
  let m' :=
    if MAX_TERMS_PER_COMPANY < m.length ∧ cutoffCount m ≤ 1
    then m.filter (fun p => 2 ≤ p.2) else m
  (List.insertionSort rankLE m').take MAX_TERMS_PER_COMPANY

/-- `top_terms`. -/
def selectTerms (m : List (Str × Nat)) : List Str :=
  (selectPairs m).map Prod.fst

/-! ## Context extraction (`_extract_context`) -/

/-- First index at or after `start` where `needle` starts in `hay`. -/
def findSubFrom (hay needle : Str) (start : Nat) : Option Nat :=
  ((List.range (hay.length + 1)).filter
    (fun i => start ≤ i && (hay.drop i).take needle.length = needle)).head?

/-- Normalise a Python start bound: negative counts from the end (clamped
below at 0); a start beyond the length simply matches nothing. -/
def pyStartBound (n : Int) (len : Nat) : Nat :=
  if n < 0 then ((len : Int) + n).toNat else n.toNat

/-- Normalise a Python end bound: negative counts from the end, positive is
clamped above at the length. -/
def pyEndBound (n : Int) (len : Nat) : Nat :=
  if n < 0 then ((len : Int) + n).toNat else min n.toNat len

/-- Python `hay.find(needle, start, end)` with slice semantics, returning
`-1` when absent. -/
def pyFindIn (hay needle : Str) (start endp : Int) : Int :=
  let a := pyStartBound start hay.length
  let b := pyEndBound endp hay.length
  match ((List.range (hay.length + 1)).filter (fun i =>
    a ≤ i && i + needle.length ≤ b && (hay.drop i).take needle.length = needle)).head? with
  | some i => (i : Int)
  | none => -1

/-- Python `hay.rfind(needle, start, end)` with slice semantics. -/
def pyRFindIn (hay needle : Str) (start endp : Int) : Int :=
  let a := pyStartBound start hay.length
  let b := pyEndBound endp hay.length
  match ((List.range (hay.length + 1)).filter (fun i =>
    a ≤ i && i + needle.length ≤ b && (hay.drop i).take needle.length = needle)).getLast? with
  | some i => (i : Int)
  | none => -1

/-- `re.sub(r"\s+", " ", s)`: collapse every whitespace run to one space. -/
def collapseWsAux : Str → Bool → Str
  | [], _ => []
  | c :: rest, prevWs =>
      if isPySpace c then
        (if prevWs then collapseWsAux rest true else ' ' :: collapseWsAux rest true)
      else c :: collapseWsAux rest false

def collapseWs (s : Str) : Str := collapseWsAux s false

/-- `_extract_context(text, term)`.  Note that in the source `after` is an
index into the window before the `before + 1` prefix cut, but is applied as
a bound after that cut; the model reproduces this. -/
def extractContext (text term : Str) : Option Str :=
  match findSubFrom text term 0 with
  | none => none
  | some idx =>
    let left := idx - 80
    let right := min text.length (idx + term.length + 140)
    let window := (text.drop left).take (right - left)
    let window := pyStrip (collapseWs window)
    if window = [] then none
    else
      let fpos : Int := pyFindIn window term 0 (window.length : Int)
      let before : Int := pyRFindIn window (("。").data) 0 fpos
      let after : Int := pyFindIn window (("。").data) (fpos + (term.length : Int)) (window.length : Int)
      let window := if before ≠ -1 then window.drop (before.toNat + 1) else window
      let window := if after ≠ -1 then window.take (after.toNat + 1) else window
      let window := pyStrip window
      if window.length < 6 then none
      else if 160 < window.length then
        some (pyStripRightBy isPySpace (window.take 160) ++ ("…").data)
      else some window

/-! ## Metadata tagging (`_concept_type`, `_category`, `_pos`) and
`process_company_dir` -/

def metricMarkers : List Str :=
  [("高").data, ("額").data, ("利益").data, ("損失").data, ("収益").data,
   ("売上").data, ("費").data, ("コスト").data, ("率").data, ("比率").data,
   ("件数").data, ("人数").data, ("数量").data, ("単価").data, ("KPI").data,
   ("ROE").data, ("ROA").data, ("EBITDA").data, ("EPS").data, ("PER").data,
   ("PBR").data, ("CF").data, ("FCF").data]

def eventMarkers : List Str :=
  [("減損").data, ("買収").data, ("合併").data, ("取得").data, ("売却").data,
   ("訴訟").data, ("計上").data, ("発生").data, ("適用").data]

def structureMarkers : List Str :=
  [("セグメント").data, ("方針").data, ("戦略").data, ("計画").data,
   ("モデル").data, ("システム").data, ("プロセス").data, ("体制").data,
   ("ガバナンス").data, ("内部統制").data]

def entityMarkers : List Str :=
  [("委員会").data, ("グループ").data, ("子会社").data, ("連結子会社").data,
   ("部").data, ("本部").data, ("室").data, ("会").data]

/-- `_concept_type`. -/
def conceptType (term : Str) : Str :=
  if metricMarkers.any (fun m => containsSub m term) then ("Metric").data
  else if eventMarkers.any (fun m => containsSub m term) then ("Event").data
  else if structureMarkers.any (fun m => containsSub m term) then ("Structure").data
  else if entityMarkers.any (fun m => containsSub m term) then ("Entity").data
  else ("Other").data

/-- `_category`. -/
def categoryOf (term : Str) : Option Str :=
  if [("売上").data, ("利益").data, ("収益").data, ("費用").data, ("原価").data,
      ("営業").data, ("経常").data].any (fun k => containsSub k term) then some (("PL").data)
  else if [("資産").data, ("負債").data, ("純資産").data, ("のれん").data,
      ("株主資本").data].any (fun k => containsSub k term) then some (("BS").data)
  else if containsSub (("キャッシュ").data) term || pyEndsWith (("CF").data) term
      || containsSub (("キャッシュ・フロー").data) term then some (("CF").data)
  else if containsSub (("リスク").data) term then some (("Risk").data)
  else if [("ガバナンス").data, ("内部統制").data, ("コンプライアンス").data].any
      (fun k => containsSub k term) then some (("Governance").data)
  else if [("セグメント").data, ("KPI").data, ("事業").data, ("顧客").data,
      ("戦略").data].any (fun k => containsSub k term) then some (("Business").data)
  else none

/-- `_pos`: every branch of the source returns `"名詞"`. -/
def posOf (term : Str) : Str :=
  if isAlnumStr term then ("名詞").data
  else if term.any Char.isAlpha then ("名詞").data
  else ("名詞").data

/-- `_company_name_from_dirname`: `re.match(r"^\d+_(.+)$", dirname)` strips a
leading ordinal; otherwise the directory name itself. -/
def companyNameFromDirname (dirname : Str) : Str :=
  let ds := dirname.takeWhile isDigitChar
  match dirname.dropWhile isDigitChar with
  | '_' :: rest => if ds ≠ [] ∧ rest ≠ [] then rest else dirname
  | _ => dirname

/-- One record of `wordList.jsonl` (schema of the `entry` dict built at
lines 433-450; a missing `description`/`category` key is `none`). -/
structure Item where
  word : Str
  description : Option Str
  pos : Str
  conceptType : Str
  category : Option Str
  source : Str
  company : Str
deriving DecidableEq, Repr

/-- Diagnostics of one converted document (the `PdfInfo` dataclass). -/
structure DocInfo where
  name : Str
  pagesTotal : Nat
  pagesWithText : Nat
deriving DecidableEq, Repr

/-- One page as delivered by the external conversion and tokenization
collaborators: its cleaned text and its token stream. -/
structure Page where
  text : Str
  tokens : List ExtractTerms.Token
deriving DecidableEq, Repr

/-- One source document, already converted to pages. -/
structure Doc where
  name : Str
  pages : List Page
deriving DecidableEq, Repr

/-- `pages_with_text` as computed by `extract_pdf_pages_text`: the number of
pages with non-empty cleaned text. -/
def pagesWithText (d : Doc) : Nat :=
  (d.pages.filter (fun p => p.text ≠ [])).length

def docInfo (d : Doc) : DocInfo :=
  { name := d.name, pagesTotal := d.pages.length, pagesWithText := pagesWithText d }

/-- Mutable state of the per-company loop in `process_company_dir`. -/
structure CState where
  counter : List (Str × Nat)
  firstContext : List (Str × Str)
  notes : List Str
  infos : List DocInfo
deriving Repr

def emptyCState : CState := ⟨[], [], [], []⟩

def fcMember (m : List (Str × Str)) (t : Str) : Bool := m.any (fun p => p.1 = t)

def lookupFC (m : List (Str × Str)) (t : Str) : Option Str :=
  (m.find? (fun p => p.1 = t)).map Prod.snd

/-- `term = _nfkc(raw_term).strip()` then `term.strip("・-－‐/／")`. -/
def normalizeTerm (nfkc : Str → Str) (raw : Str) : Str :=
  stripConnectors (pyStrip (nfkc raw))

/-- Lines 411-420: normalise one raw candidate, drop it if `_looks_bad`,
else bump the counter and capture a first context if none is stored yet and
the extracted context is truthy. -/
def stepTerm (nfkc : Str → Str) (company pageText : Str)
    (st : List (Str × Nat) × List (Str × Str)) (raw : Str) :
    List (Str × Nat) × List (Str × Str) :=
  let term := normalizeTerm nfkc raw
  if looksBad nfkc term company then st
  else
    (counterBump st.1 term,
     if fcMember st.2 term then st.2
     else
       match extractContext pageText term with
       | some ctx => if ctx ≠ [] then st.2 ++ [(term, ctx)] else st.2
       | none => st.2)

/-- Lines 408-420: skip empty pages, else process every candidate of the page. -/
def stepPage (nfkc : Str → Str) (company : Str)
    (st : List (Str × Nat) × List (Str × Str)) (pg : Page) :
    List (Str × Nat) × List (Str × Str) :=
  if pg.text = [] then st
  else (extractCandidates pg.tokens).foldl (stepTerm nfkc company pg.text) st

/-- The note for a document with no extractable text. -/
def unextractableNote (d : Doc) : Str :=
  d.name ++ (": テキスト抽出できたページが0でした（スキャンPDFの可能性）。").data

/-- Lines 401-420: record the document's info, then either note an
unextractable document or fold over its pages. -/
def stepDoc (nfkc : Str → Str) (company : Str) (st : CState) (d : Doc) : CState :=
  let st := { st with infos := st.infos ++ [docInfo d] }
  if pagesWithText d = 0 then
    { st with notes := st.notes ++ [unextractableNote d] }
  else
    let p := d.pages.foldl (stepPage nfkc company) (st.counter, st.firstContext)
    { st with counter := p.1, firstContext := p.2 }

def processDocs (nfkc : Str → Str) (company : Str) (docs : List Doc) : CState :=
  docs.foldl (stepDoc nfkc company) emptyCState

/-- The note appended when the counter is shrunk to counts at least 2. -/
def shrinkNote (n : Nat) : Str :=
  ("候補語が ").data ++ (toString n).data ++ (" 語と多いため、出現2回以上の語に絞り込みました。").data

/-- The `entry` dict of lines 435-450. -/
def mkEntry (fc : List (Str × Str)) (company : Str) (term : Str) : Item :=
  { word := term
    description := lookupFC fc term
    pos := posOf term
    conceptType := conceptType term
    category := categoryOf term
    source := ("有価証券報告書").data
    company := company }

/-- The result of `process_company_dir` (fields used by `write_outputs`). -/
structure CompanyResult where
  company : Str
  terms : List Str
  /-- `none` models an absent `entries` key: the no-PDF early return of
  `process_company_dir` builds its dict without one. -/
  entries : Option (List Item)
  notes : List Str
  infos : List DocInfo
deriving Repr

/-- `process_company_dir`, over a directory name and the already-converted
documents (`sorted(company_dir.glob("*.pdf"))` is the input order).  The
no-PDF branch returns a result without an `entries` key (`none`). -/
def processCompanyDir (nfkc : Str → Str) (dirname : Str) (docs : List Doc) :
    CompanyResult :=
  let company := companyNameFromDirname dirname
  if docs = [] then
    { company := company, terms := [], entries := none,
      notes := [("PDFが見つかりませんでした。").data], infos := [] }
  else
    let st := processDocs nfkc company docs
    let notes := st.notes ++
      (if MAX_TERMS_PER_COMPANY < st.counter.length ∧ cutoffCount st.counter ≤ 1
       then [shrinkNote st.counter.length] else [])
    let topTerms := selectTerms st.counter
    { company := company, terms := topTerms,
      entries := some (topTerms.map (mkEntry st.firstContext company)),
      notes := notes, infos := st.infos }

/-- The files of one company written by `write_outputs`, and whether the
call raised. -/
structure PassOneFiles where
  /-- `wordList.txt` content as lines, `none` when never written. -/
  wordTxt : Option (List Str)
  /-- `wordList.jsonl` records, `none` when never written. -/
  jsonl : Option (List Item)
  /-- `true` when `write_outputs` raised (`KeyError` on `result["entries"]`). -/
  raised : Bool
deriving DecidableEq, Repr

/-- `write_outputs`: `wordList.txt` is written from `result["terms"]`
first (line 486); then line 487 reads `result["entries"]`, which raises
`KeyError` when the key is absent — after the word list is on disk and
before `wordList.jsonl` is written. -/
def writeOutputs (r : CompanyResult) : PassOneFiles :=
  match r.entries with
  | none => { wordTxt := some r.terms, jsonl := none, raised := true }
  | some es => { wordTxt := some r.terms, jsonl := some es, raised := false }

end ExtractTerms

namespace Microfix

open ExtractTerms (Item companyNameFromDirname isWordChar)

/-! ## Constants and regular expressions of `run_microfix_outputs.py` -/

def GENERIC_STOPWORDS : List Str :=
  [("会社").data, ("期間").data, ("事項").data, ("可能").data, ("状況").data,
   ("方法").data, ("当該").data, ("上記").data, ("記載").data, ("提出").data,
   ("書類").data, ("年度").data, ("月").data, ("日").data, ("時点").data,
   ("現在").data, ("当期").data, ("当社").data]

def FORM_TERMS : List Str :=
  [("EDINET").data, ("EDINET提出書類").data, ("提出書類").data,
   ("有価証券報告書").data, ("有価証券報告").data, ("証券報告").data]

/-- `RE_EDINET_CODE = E\d{5}` (search). -/
def hasEdinetCode : Str → Bool
  | [] => false
  | c :: rest =>
      (c = 'E' && (rest.take 5).length = 5 && (rest.take 5).all isDigitChar)
      || hasEdinetCode rest

/-- `RE_HAS_BRACKETS = [【】]` (search). -/
def hasBrackets (s : Str) : Bool := s.any (fun c => c = '【' || c = '】')

/-- `RE_ONLY_NUM_PUNCT = ^[\d,.\-–—/]+$` (pass 2 variant: with `/`, without `ー`). -/
def reOnlyNumPunct2 (s : Str) : Bool :=
  s ≠ [] && s.all (fun c => isDigitChar c || c = ',' || c = '.' || c = '-' || c = '–' || c = '—' || c = '/')

/-- `RE_FOOTNOTE = ^(\(\d+\)|\d+\))$`. -/
def reFootnote (s : Str) : Bool :=
  (match s with
   | '(' :: rest =>
       ExtractTerms.digitsThen 1 rest.length (fun r => r = [')']) rest
   | _ => false)
  || ExtractTerms.digitsThen 1 s.length (fun r => r = [')']) s

/-- One alternative of `RE_DATE_FRAGMENT` matching at the start of `s`. -/
def dateFragmentAt (s : Str) : Bool :=
  ExtractTerms.digitsThen 4 4 (ExtractTerms.headIsThen '年' (fun _ => true)) s
  || ExtractTerms.digitsThen 1 2 (ExtractTerms.headIsThen '月'
       (ExtractTerms.digitsThen 0 2 (fun r =>
         match r with
         | '日' :: _ => true
         | _ => true))) s
  || ExtractTerms.digitsThen 4 4 (ExtractTerms.headIsThen '/'
       (ExtractTerms.digitsThen 1 2 (ExtractTerms.headIsThen '/'
         (ExtractTerms.digitsThen 1 2 (fun _ => true))))) s
  || ExtractTerms.digitsThen 4 4 (ExtractTerms.headIsThen '-'
       (ExtractTerms.digitsThen 1 2 (ExtractTerms.headIsThen '-'
         (ExtractTerms.digitsThen 1 2 (fun _ => true))))) s

/-- `RE_DATE_FRAGMENT` (search). -/
def hasDateFragment : Str → Bool
  | [] => dateFragmentAt []
  | s@(_ :: rest) => dateFragmentAt s || hasDateFragment rest

/-- `RE_MONTH_LEADING = ^月\d+(日)?$`. -/
def reMonthLeading (s : Str) : Bool :=
  match s with
  | '月' :: rest =>
      ExtractTerms.digitsThen 1 rest.length (fun r => r = [] || r = ['日']) rest
  | _ => false

/-- `RE_MONTH_TRAILING = ^\d+月$`. -/
def reMonthTrailing (s : Str) : Bool :=
  ExtractTerms.digitsThen 1 s.length (fun r => r = ['月']) s

/-- `RE_PAGE_FRACTION = ^\d+\s*/\s*\d+$`. -/
def rePageFraction (s : Str) : Bool :=
  ExtractTerms.digitsThen 1 s.length (fun r =>
    match r.dropWhile isPySpace with
    | '/' :: r2 =>
        let r3 := r2.dropWhile isPySpace
        r3 ≠ [] && r3.all isDigitChar
    | _ => false) s

/-- `RE_SECTION` (same pattern as pass 1's `RE_SECTION_LIKE`). -/
def reSection (s : Str) : Bool := ExtractTerms.reSectionLike s

/-- `RE_UNIT_FRAGMENT` (search): any of the unit substrings occurs. -/
def hasUnitFragment (s : Str) : Bool :=
  [("単位").data, ("百万円").data, ("千円").data, ("円").data, ("株").data,
   ("％").data, ("%").data, ("回").data, ("人").data, ("件").data,
   ("台").data, ("社").data, ("日").data, ("月").data, ("年").data].any
    (fun u => containsSub u s)

/-- `RE_PARENS = [()（）]` (search). -/
def hasParens (s : Str) : Bool :=
  s.any (fun c => c = '(' || c = ')' || c = '（' || c = '）')

def countChar (c : Char) (s : Str) : Nat := (s.filter (fun d => d = c)).length

/-- `_is_noisy_word(word, company)`: the early-`return True` chain as a
disjunction. -/
def isNoisyWord (word company : Str) : Bool :=
  let w := pyStrip word
  w = []
  || FORM_TERMS.contains w
  || GENERIC_STOPWORDS.contains w
  || hasEdinetCode w
  || hasBrackets w
  || reOnlyNumPunct2 w
  || reFootnote w
  || rePageFraction w
  || reSection w
  || hasDateFragment w
  || reMonthLeading w || reMonthTrailing w
  || ((containsSub [('(')] w || containsSub [(')')] w
       || containsSub [('（')] w || containsSub [('）')] w)
      && (countChar '(' w ≠ countChar ')' w || countChar '（' w ≠ countChar '）' w))
  || (hasParens w && hasUnitFragment w)
  || ((pyEndsWith [(')')] w || pyEndsWith [('）')] w) && hasUnitFragment w)
  || (pyEndsWith [(':')] w && containsSub (("単位").data) w)
  || w = company

/-- `RE_PHONE = \b0\d{1,4}-\d{1,4}-\d{3,4}\b` matching at the start of `s`,
where `prevIsWord` tells whether the previous character is a word character
(for the leading `\b`). -/
def phoneAt (prevIsWord : Bool) (s : Str) : Bool :=
  !prevIsWord &&
  (match s with
   | '0' :: r =>
       ExtractTerms.digitsThen 1 4 (ExtractTerms.headIsThen '-'
         (ExtractTerms.digitsThen 1 4 (ExtractTerms.headIsThen '-'
           (ExtractTerms.digitsThen 3 4 (fun rest =>
             match rest with
             | [] => true
             | c :: _ => !isWordChar c))))) r
   | _ => false)

def hasPhoneAux : Bool → Str → Bool
  | _, [] => false
  | prev, s@(c :: rest) => phoneAt prev s || hasPhoneAux (isWordChar c) rest

/-- `RE_PHONE` (search). -/
def hasPhone (s : Str) : Bool := hasPhoneAux false s

/-- A gap crossed by `.*`: zero or more non-newline characters.  `anyGapPos
p s` holds when `p` matches at some position reachable from the start of `s`
without crossing a newline. -/
def anyGapPos (p : Str → Bool) : Str → Bool
  | [] => p []
  | s@(c :: rest) => p s || (c ≠ '\n' && anyGapPos p rest)

/-- The prefecture alternative of `RE_ADDRESS_LIKE`
(`東京都|北海道|(京都|大阪)府|.{2,3}県`) at the start of `s`; on success
continues with `k` on the rest. -/
def prefectureAt (k : Str → Bool) (s : Str) : Bool :=
  (("東京都").data.isPrefixOf s && k (s.drop 3))
  || (("北海道").data.isPrefixOf s && k (s.drop 3))
  || (("京都府").data.isPrefixOf s && k (s.drop 3))
  || (("大阪府").data.isPrefixOf s && k (s.drop 3))
  || ([2, 3].any (fun n =>
       (s.take n).length = n && (s.take n).all (fun c => c ≠ '\n')
       && ExtractTerms.headIsThen '県' k (s.drop n)))

/-- The block alternative `丁目|番|号|\d{1,4}-\d{1,4}` at the start of `s`. -/
def blockAt (s : Str) : Bool :=
  ("丁目").data.isPrefixOf s || ("番").data.isPrefixOf s || ("号").data.isPrefixOf s
  || ExtractTerms.digitsThen 1 4 (ExtractTerms.headIsThen '-'
       (ExtractTerms.digitsThen 1 4 (fun _ => true))) s

def cityAt (k : Str → Bool) (s : Str) : Bool :=
  match s with
  | c :: rest => (c = '市' || c = '区' || c = '町' || c = '村') && k rest
  | [] => false

/-- A `re.search` start-position scan: the match may begin at any position
of the string, newlines included (only the `.*` gaps inside the pattern are
barred from crossing a newline). -/
def anyStart (p : Str → Bool) : Str → Bool
  | [] => p []
  | s@(_ :: rest) => p s || anyStart p rest

/-- `RE_ADDRESS_LIKE` (search):
`(東京都|北海道|(京都|大阪)府|.{2,3}県).*(市|区|町|村).*(丁目|番|号|\d{1,4}-\d{1,4})`. -/
def addressLike (s : Str) : Bool :=
  anyStart (prefectureAt (anyGapPos (cityAt (anyGapPos blockAt)))) s

/-- `_is_noisy_description(desc)`.  The float test
`digits / max(1, len(d)) > 0.35` is exact as the rational comparison
`20 * digits > 7 * max(1, len(d))` for all list lengths reachable here
(the quotient and 0.35 round to equal doubles only when they are equal as
rationals, which the integer comparison captures). -/
def isNoisyDescription (desc : Str) : Bool :=
  let d := pyStrip desc
  d = []
  || containsSub (("EDINET提出書類").data) d
  || containsSub (("【表紙】").data) d
  || containsSub (("【提出").data) d
  || containsSub (("財務局長").data) d
  || containsSub (("電話番号").data) d
  || hasPhone d
  || containsSub (("【会社名】").data) d
  || containsSub (("【英訳名】").data) d
  || containsSub (("【代表者").data) d
  || addressLike d
  || (20 * (d.filter isDigitChar).length > 7 * max 1 d.length && d.length < 120)
  || d.length < 10

/-! ## `microfix_company` (the pure artifact transformation) -/

/-- `_load_words`: strip each line, drop blank lines. -/
def loadWords (lines : List Str) : List Str :=
  (lines.map pyStrip).filter (fun w => w ≠ [])

/-- The word filtering loop of lines 209-217: drop noisy words, dedupe
keeping first occurrences. -/
def keepWordsAux (company : Str) : List Str → List Str → List Str
  | [], _ => []
  | w :: ws, seen =>
      if isNoisyWord w company then keepWordsAux company ws seen
      else if w ∈ seen then keepWordsAux company ws seen
      else w :: keepWordsAux company ws (w :: seen)

def keepWords (company : Str) (lines : List Str) : List Str :=
  keepWordsAux company (loadWords lines) []

/-- The record loop of lines 224-233: drop records whose stripped word is
empty or not kept; on surviving records drop a noisy `description`. -/
def itemsOutList (keep : List Str) : List Item → List Item
  | [] => []
  | it :: rest =>
      let word := pyStrip it.word
      if word = [] ∨ word ∉ keep then itemsOutList keep rest
      else
        (match it.description with
         | some d => if isNoisyDescription d then { it with description := none } else it
         | none => it) :: itemsOutList keep rest

/-- Lines 236-241: order the records by the kept word list, taking for each
word the first record carrying it (`by_word` keeps first occurrences). -/
def itemsOrdered (keep : List Str) (outs : List Item) : List Item :=
  keep.filterMap (fun w => outs.find? (fun it => it.word = w))

/-- The artifact transformation of `microfix_company` on the persisted word
list (as lines) and record list; the worklog append and `FixStats` are not
modelled. -/
def microfixCompany (dirname : Str) (lines : List Str) (items : List Item) :
    List Str × List Item :=
  let company := companyNameFromDirname dirname
  let kw := keepWords company lines
  (kw, itemsOrdered kw (itemsOutList kw items))

end Microfix

namespace Batch

open ExtractTerms (Doc CompanyResult processCompanyDir Item)

/-- Directory-name order used by `sorted(...)` over directories. -/
def nameLE (a b : Str × α) : Prop := strLe a.1 b.1 = true

instance : DecidableRel (nameLE (α := α)) := fun a b => instDecidableEqBool (strLe a.1 b.1) true

instance : IsTotal (Str × α) nameLE := ⟨fun a b => strLe_total a.1 b.1⟩

instance : IsTrans (Str × α) nameLE := ⟨fun _ _ _ => strLe_trans⟩

/-- `main()` of `run_extract_terms.py`: `none` models an absent
`resources/` directory; otherwise the list of company directories (name and
converted documents).  A `SystemExit` is an `Except.error`. -/
def mainExtract (nfkc : Str → Str) (resources : Option (List (Str × List Doc))) :
    Except Str (List CompanyResult) :=
  match resources with
  | none => Except.error (("resourcesが見つかりません").data)
  | some dirs =>
      let sorted := List.insertionSort nameLE dirs
      if sorted = [] then Except.error (("企業フォルダが見つかりません").data)
      else Except.ok (sorted.map (fun d => processCompanyDir nfkc d.1 d.2))

/-- One company output directory as seen by `microfix_company`: the
artifact files may be absent (`none`). -/
structure ArtifactDir where
  name : Str
  wordTxt : Option (List Str)
  jsonl : Option (List Item)
deriving DecidableEq, Repr

/-- Directory order for artifact directories. -/
def nameLE' (a b : ArtifactDir) : Prop := strLe a.name b.name = true

instance : DecidableRel nameLE' := fun a b => instDecidableEqBool (strLe a.name b.name) true

instance : IsTotal ArtifactDir nameLE' := ⟨fun a b => strLe_total a.name b.name⟩

instance : IsTrans ArtifactDir nameLE' := ⟨fun _ _ _ => strLe_trans⟩

/-- `microfix_company` entry: existence checks raise `FileNotFoundError`
(modelled as `Except.error`) before any processing. -/
def microfixCompanyRun (a : ArtifactDir) : Except Str (List Str × List Item) :=
  match a.wordTxt with
  | none => Except.error (a.name ++ ("/wordList/wordList.txt").data)
  | some lines =>
      match a.jsonl with
      | none => Except.error (a.name ++ ("/metadata/wordList.jsonl").data)
      | some items => Except.ok (Microfix.microfixCompany a.name lines items)

/-- The sequential company loop of `main()`: no per-company handler, so
the first raised error aborts the remaining batch. -/
def runAll : List ArtifactDir → Except Str (List (List Str × List Item))
  | [] => Except.ok []
  | d :: rest =>
      match microfixCompanyRun d with
      | Except.error e => Except.error e
      | Except.ok r =>
          match runAll rest with
          | Except.error e => Except.error e
          | Except.ok rs => Except.ok (r :: rs)

/-- `main()` of `run_microfix_outputs.py`. -/
def mainMicrofix (output : Option (List ArtifactDir)) :
    Except Str (List (List Str × List Item)) :=
  match output with
  | none => Except.error (("outputが見つかりません").data)
  | some dirs =>
      let sorted := List.insertionSort nameLE' dirs
      if sorted = [] then Except.error (("企業ディレクトリがありません").data)
      else runAll sorted



end Batch

/-! ## Claim theorems -/

/-- C4: for every frequency map, the Term Set produced by
`process_company_dir` is ordered by descending frequency with ties broken
by ascending code-point order of the word (the order `rankLE`); and for the
counts C ↦ 5, A ↦ 3, B ↦ 3 the resulting order is C, A, B. -/
theorem c4_term_ranking :
    (∀ m : List (Str × Nat),
      List.Sorted ExtractTerms.rankLE (ExtractTerms.selectPairs m))
    ∧ ExtractTerms.selectTerms [(("C").data, 5), (("A").data, 3), (("B").data, 3)]
        = [("C").data, ("A").data, ("B").data] := by
  constructor
  · intro m
    exact List.Pairwise.sublist (List.take_sublist _ _)
      (List.sorted_insertionSort ExtractTerms.rankLE _)
  · decide

namespace ExtractTerms

/-- Every element at or beyond the cap-th rank of `most_common` has a count
at most the cutoff count. -/
theorem drop_le_cutoffCount (m : List (Str × Nat))
    (hlen : MAX_TERMS_PER_COMPANY < m.length) :
    ∀ x ∈ (mostCommon m).drop (MAX_TERMS_PER_COMPANY - 1), x.2 ≤ cutoffCount m := by
  intro x hx
  have hslen : (mostCommon m).length = m.length := List.length_insertionSort cntGE m
  have hMlt : MAX_TERMS_PER_COMPANY - 1 < (mostCommon m).length := by
    rw [hslen]; omega
  -- the cutoff is the element at index cap-1 of the sorted list
  have hcut : cutoffCount m = ((mostCommon m)[MAX_TERMS_PER_COMPANY - 1]).2 := by
    unfold cutoffCount
    rw [List.getLastD_eq_getLast?, List.getLast?_eq_getElem?]
    have hlt : (MAX_TERMS_PER_COMPANY : Nat) ≤ (mostCommon m).length := by
      rw [hslen]; omega
    have hlen' : ((mostCommon m).take MAX_TERMS_PER_COMPANY).length
        = MAX_TERMS_PER_COMPANY := by
      rw [List.length_take]; omega
    rw [hlen']
    have hidx : MAX_TERMS_PER_COMPANY - 1
        < ((mostCommon m).take MAX_TERMS_PER_COMPANY).length := by
      rw [hlen']
      unfold MAX_TERMS_PER_COMPANY
      omega
    rw [List.getElem?_eq_getElem hidx, List.getElem_take]
    rfl
  rw [hcut]
  rw [List.mem_iff_getElem] at hx
  obtain ⟨i, hi, rfl⟩ := hx
  have hi' : MAX_TERMS_PER_COMPANY - 1 + i < (mostCommon m).length := by
    rw [List.length_drop] at hi; omega
  have hgd : ((mostCommon m).drop (MAX_TERMS_PER_COMPANY - 1))[i]
      = (mostCommon m)[MAX_TERMS_PER_COMPANY - 1 + i] := by
    rw [List.getElem_drop]
  rw [hgd]
  rcases Nat.eq_zero_or_pos i with hz | hp
  · subst hz; simp
  · have := List.pairwise_iff_getElem.mp (List.sorted_insertionSort cntGE m)
      (MAX_TERMS_PER_COMPANY - 1) (MAX_TERMS_PER_COMPANY - 1 + i) hMlt hi' (by omega)
    exact this

/-- When the cutoff count is at most 1, fewer than the cap entries have
count at least 2. -/
theorem filter_ge2_small (m : List (Str × Nat))
    (hlen : MAX_TERMS_PER_COMPANY < m.length) (hcut : cutoffCount m ≤ 1) :
    (m.filter (fun p => 2 ≤ p.2)).length ≤ MAX_TERMS_PER_COMPANY := by
  have hperm : List.Perm (mostCommon m) m := List.perm_insertionSort cntGE m
  rw [← List.countP_eq_length_filter, ← hperm.countP_eq]
  have hsplit := List.countP_append (fun p => decide (2 ≤ p.2))
    ((mostCommon m).take (MAX_TERMS_PER_COMPANY - 1))
    ((mostCommon m).drop (MAX_TERMS_PER_COMPANY - 1))
  rw [List.take_append_drop] at hsplit
  rw [hsplit]
  have h2 : ((mostCommon m).drop (MAX_TERMS_PER_COMPANY - 1)).countP
      (fun p => decide (2 ≤ p.2)) = 0 := by
    rw [List.countP_eq_zero]
    intro x hx
    have := drop_le_cutoffCount m hlen x hx
    simp only [decide_eq_true_eq]
    omega
  have h1 : ((mostCommon m).take (MAX_TERMS_PER_COMPANY - 1)).countP
      (fun p => decide (2 ≤ p.2)) ≤ MAX_TERMS_PER_COMPANY - 1 :=
    le_trans (List.countP_le_length _) (by rw [List.length_take]; omega)
  omega

end ExtractTerms

/-- C3: when a frequency map has more than 10000 (the cap) entries, then if
the count at the cap-th rank is at most 1 the Term Set is exactly the
candidates with count at least 2 (in ranking order, with no truncation
taking effect), and otherwise it is exactly the first cap entries of the
ranking order. -/
theorem c3_cap_truncation (m : List (Str × Nat))
    (hlen : ExtractTerms.MAX_TERMS_PER_COMPANY < m.length) :
    (ExtractTerms.cutoffCount m ≤ 1 →
      ExtractTerms.selectTerms m
        = (List.insertionSort ExtractTerms.rankLE
            (m.filter (fun p => 2 ≤ p.2))).map Prod.fst)
    ∧ (2 ≤ ExtractTerms.cutoffCount m →
      ExtractTerms.selectTerms m
        = ((List.insertionSort ExtractTerms.rankLE m).take
            ExtractTerms.MAX_TERMS_PER_COMPANY).map Prod.fst) := by
  constructor
  · intro hcut
    unfold ExtractTerms.selectTerms ExtractTerms.selectPairs
    rw [if_pos ⟨hlen, hcut⟩]
    rw [List.take_of_length_le]
    rw [List.length_insertionSort]
    exact ExtractTerms.filter_ge2_small m hlen hcut
  · intro hcut
    unfold ExtractTerms.selectTerms ExtractTerms.selectPairs
    rw [if_neg (by omega : ¬ (ExtractTerms.MAX_TERMS_PER_COMPANY < m.length
      ∧ ExtractTerms.cutoffCount m ≤ 1))]

namespace ExtractTerms

/-- If every count in the map is at most 1, the cutoff count is at most 1. -/
theorem cutoffCount_le_one (m : List (Str × Nat)) (h : ∀ p ∈ m, p.2 ≤ 1) :
    cutoffCount m ≤ 1 := by
  unfold cutoffCount
  rw [List.getLastD_eq_getLast?]
  rcases hE : ((mostCommon m).take MAX_TERMS_PER_COMPANY).getLast? with _ | p
  · simp
  · simp only [Option.getD_some]
    rw [List.getLast?_eq_getElem?] at hE
    obtain ⟨hlt, rfl⟩ := List.getElem?_eq_some.mp hE
    have hp : _ ∈ (mostCommon m).take MAX_TERMS_PER_COMPANY := List.getElem_mem hlt
    have hm : _ ∈ m := (List.perm_insertionSort cntGE m).mem_iff.mp
      (List.mem_of_mem_take hp)
    exact h _ hm

end ExtractTerms

/-- Witness for C3: a map of 10001 distinct-positionally listed entries all
of count 1 satisfies the hypotheses, so the Term Set is exactly the entries
of count at least 2. -/
theorem c3_cap_truncation_witness :
    ExtractTerms.MAX_TERMS_PER_COMPANY
        < (List.replicate 10001 ((['a'] : Str), 1)).length
    ∧ ExtractTerms.cutoffCount (List.replicate 10001 ((['a'] : Str), 1)) ≤ 1
    ∧ ExtractTerms.selectTerms (List.replicate 10001 ((['a'] : Str), 1))
        = (List.insertionSort ExtractTerms.rankLE
            ((List.replicate 10001 ((['a'] : Str), 1)).filter
              (fun p => 2 ≤ p.2))).map Prod.fst := by
  have h1 : ExtractTerms.MAX_TERMS_PER_COMPANY
      < (List.replicate 10001 ((['a'] : Str), 1)).length := by
    rw [List.length_replicate]
    decide
  have h2 : ExtractTerms.cutoffCount (List.replicate 10001 ((['a'] : Str), 1)) ≤ 1 := by
    refine ExtractTerms.cutoffCount_le_one _ ?_
    intro p hp
    rw [List.mem_replicate] at hp
    rw [hp.2]
  exact ⟨h1, h2, (c3_cap_truncation _ h1).1 h2⟩

namespace ExtractTerms

set_option maxHeartbeats 1000000 in
theorem mem_emitAt (sk : Str × Kind) (rest : List (Str × Kind)) (c : Str) :
    c ∈ emitAt sk rest ↔
      (sk.2 = Kind.noun ∧ ¬ CONNECTORS.contains sk.1 ∧ c = sk.1)
      ∨ (2 ≤ nounCountOf ((sk :: rest).take 6)
         ∧ phraseOf ((sk :: rest).take 6) ≠ []
         ∧ (phraseOf ((sk :: rest).take 6)).length ≤ MAX_TERM_CHARS
         ∧ c = phraseOf ((sk :: rest).take 6)) := by
  simp only [emitAt]
  split_ifs with h1 h2 h2 <;>
    simp only [List.mem_append, List.mem_singleton, List.not_mem_nil,
      List.nil_append, List.append_nil, or_false, false_or, List.mem_nil_iff] <;>
    tauto

theorem exists_cons_decomp {α : Type _} (hd : α) (tl : List α)
    (P : α → List α → Prop) :
    (∃ pre sk suf, hd :: tl = pre ++ sk :: suf ∧ P sk suf)
      ↔ P hd tl ∨ (∃ pre sk suf, tl = pre ++ sk :: suf ∧ P sk suf) := by
  constructor
  · rintro ⟨pre, sk, suf, heq, hp⟩
    cases pre with
    | nil =>
        simp only [List.nil_append, List.cons.injEq] at heq
        obtain ⟨rfl, rfl⟩ := heq
        exact Or.inl hp
    | cons a pre' =>
        simp only [List.cons_append, List.cons.injEq] at heq
        obtain ⟨rfl, rfl⟩ := heq
        exact Or.inr ⟨pre', sk, suf, rfl, hp⟩
  · rintro (hp | ⟨pre, sk, suf, rfl, hp⟩)
    · exact ⟨[], hd, tl, rfl, hp⟩
    · exact ⟨hd :: pre, sk, suf, rfl, hp⟩

end ExtractTerms

/-- C2 counterexample: in the run of three noun tokens a, b, c, the window
of length 2 starting at position 0 has two noun tokens and its stripped
text "ab" has length at most 40, yet "ab" is not emitted by
`flush_segment` — the source checks only the maximal window per start
position, because the `if noun_count >= 2 ...` emission sits outside the
inner window loop. -/
theorem c2_counterexample :
    2 ≤ ExtractTerms.nounCountOf
        (([((("a").data : Str), ExtractTerms.Kind.noun),
           ((("b").data : Str), ExtractTerms.Kind.noun),
           ((("c").data : Str), ExtractTerms.Kind.noun)]).take 2)
    ∧ (ExtractTerms.phraseOf
        (([((("a").data : Str), ExtractTerms.Kind.noun),
           ((("b").data : Str), ExtractTerms.Kind.noun),
           ((("c").data : Str), ExtractTerms.Kind.noun)]).take 2)).length
        ≤ ExtractTerms.MAX_TERM_CHARS
    ∧ ExtractTerms.phraseOf
        (([((("a").data : Str), ExtractTerms.Kind.noun),
           ((("b").data : Str), ExtractTerms.Kind.noun),
           ((("c").data : Str), ExtractTerms.Kind.noun)]).take 2)
        ∉ ExtractTerms.flushSegment
          [((("a").data : Str), ExtractTerms.Kind.noun),
           ((("b").data : Str), ExtractTerms.Kind.noun),
           ((("c").data : Str), ExtractTerms.Kind.noun)] := by
  decide

/-- C2 (amended): a string is emitted by `flush_segment` for a token run iff
at some position the run emits it as a bare non-connector noun token, or as
the stripped concatenation of the maximal window at that position (up to 6
tokens), which must contain at least two noun-kind tokens and have
non-empty stripped text of length at most 40.  Windows shorter than the
maximal one at each position are not considered. -/
theorem c2_window_emission (seg : List (Str × ExtractTerms.Kind)) (c : Str) :
    c ∈ ExtractTerms.flushSegment seg ↔
      ∃ pre sk suf, seg = pre ++ sk :: suf ∧
        ((sk.2 = ExtractTerms.Kind.noun ∧ ¬ ExtractTerms.CONNECTORS.contains sk.1
            ∧ c = sk.1)
         ∨ (2 ≤ ExtractTerms.nounCountOf ((sk :: suf).take 6)
            ∧ ExtractTerms.phraseOf ((sk :: suf).take 6) ≠ []
            ∧ (ExtractTerms.phraseOf ((sk :: suf).take 6)).length
                ≤ ExtractTerms.MAX_TERM_CHARS
            ∧ c = ExtractTerms.phraseOf ((sk :: suf).take 6))) := by
  induction seg with
  | nil =>
      simp only [ExtractTerms.flushSegment, List.not_mem_nil, false_iff]
      rintro ⟨pre, sk, suf, heq, -⟩
      exact absurd heq (by simp)
  | cons hd tl ih =>
      rw [ExtractTerms.flushSegment, List.mem_append, ih,
        ExtractTerms.exists_cons_decomp hd tl, ExtractTerms.mem_emitAt]

/-- C5: a normalized candidate (already whitespace-stripped) accepted by
`_looks_bad` for an entity with non-empty normalized name has length
between 2 and 40, is no stopword, matches none of the all-digits,
digits/punctuation-only, all-hiragana, date-literal and section-marker
patterns, differs from the normalized entity name, and does not contain the
normalized entity name when its length exceeds it by at most 4. -/
theorem c5_accepted_term_shape (nfkc : Str → Str) (term company : Str)
    (htrim : pyStrip term = term) (hcn : nfkc company ≠ [])
    (hacc : ExtractTerms.looksBad nfkc term company = false) :
    2 ≤ term.length ∧ term.length ≤ 40
    ∧ term ∉ ExtractTerms.STOPWORDS
    ∧ ExtractTerms.reOnlyDigits term = false
    ∧ ExtractTerms.reOnlyNumPunct1 term = false
    ∧ ExtractTerms.reOnlyHiragana term = false
    ∧ ExtractTerms.reDateLike term = false
    ∧ ExtractTerms.reSectionLike term = false
    ∧ term ≠ nfkc company
    ∧ (term.length ≤ (nfkc company).length + 4 →
        containsSub (nfkc company) term = false) := by
  unfold ExtractTerms.looksBad at hacc
  rw [htrim] at hacc
  simp only [Bool.or_eq_false_iff, decide_eq_false_iff_not, Bool.and_eq_false_iff,
    Bool.not_eq_false', Bool.not_eq_true, decide_eq_true_eq, not_lt, ne_eq] at hacc
  obtain ⟨⟨⟨⟨⟨⟨⟨⟨⟨⟨⟨⟨⟨h0, h1⟩, hmin⟩, hmax⟩, hstop⟩, hdig⟩, hnum⟩, hhira⟩,
    hdate⟩, hsec⟩, hhttp⟩, hkk⟩, hcomp⟩, hsub⟩ := hacc.1
  refine ⟨?_, ?_, ?_, hdig, hnum, hhira, hdate, hsec, hcomp, ?_⟩
  · unfold ExtractTerms.MIN_TERM_CHARS at hmin
    omega
  · unfold ExtractTerms.MAX_TERM_CHARS at hmax
    omega
  · simpa using hstop
  · intro hlen
    rcases hsub with (h | h) | h
    · exact absurd (not_not.mp h) hcn
    · exact h
    · omega

/-- Witness for C5 at the accepted term 営業利益 of entity ABC, with the
identity as normalization. -/
theorem c5_accepted_term_shape_witness :
    pyStrip (("営業利益").data) = ("営業利益").data
    ∧ (fun s : Str => s) (("ABC").data) ≠ []
    ∧ ExtractTerms.looksBad (fun s : Str => s) (("営業利益").data) (("ABC").data) = false
    ∧ (2 ≤ (("営業利益").data : Str).length
       ∧ (("営業利益").data : Str).length ≤ 40
       ∧ ("営業利益").data ∉ ExtractTerms.STOPWORDS
       ∧ ExtractTerms.reOnlyDigits (("営業利益").data) = false
       ∧ ExtractTerms.reOnlyNumPunct1 (("営業利益").data) = false
       ∧ ExtractTerms.reOnlyHiragana (("営業利益").data) = false
       ∧ ExtractTerms.reDateLike (("営業利益").data) = false
       ∧ ExtractTerms.reSectionLike (("営業利益").data) = false
       ∧ ("営業利益").data ≠ (fun s : Str => s) (("ABC").data)
       ∧ ((("営業利益").data : Str).length ≤ ((fun s : Str => s) (("ABC").data)).length + 4 →
           containsSub ((fun s : Str => s) (("ABC").data)) (("営業利益").data) = false)) :=
  ⟨by decide, by decide, by decide,
   c5_accepted_term_shape (fun s => s) (("営業利益").data) (("ABC").data)
     (by decide) (by decide) (by decide)⟩

theorem dropWhile_idem (p : Char → Bool) (l : Str) :
    (l.dropWhile p).dropWhile p = l.dropWhile p := by
  induction l with
  | nil => rfl
  | cons a t ih =>
      by_cases h : p a
      · simp [List.dropWhile_cons, h, ih]
      · simp [List.dropWhile_cons, h]

theorem head_false_of_dropWhile_eq {p : Char → Bool} {l : Str}
    (h : l.dropWhile p = l) :
    ∀ c w, l = c :: w → p c = false := by
  intro c w hl
  subst hl
  by_contra hpc
  rw [Bool.not_eq_false] at hpc
  rw [List.dropWhile_cons, if_pos hpc] at h
  have hle : (List.dropWhile p w).length ≤ w.length := (@List.dropWhile_sublist Char w p).length_le
  have hlen := congrArg List.length h
  simp only [List.length_cons] at hlen
  omega

theorem map_eq_self_of_mem {α : Type _} {f : α → α} {l : List α}
    (h : ∀ x ∈ l, f x = x) : l.map f = l := by
  induction l with
  | nil => rfl
  | cons a t ih => simp [h a (by simp), ih (fun x hx => h x (by simp [hx]))]

theorem dropWhile_pyStripRightBy {p : Char → Bool} {x : Str}
    (hx : x.dropWhile p = x) :
    (pyStripRightBy p x).dropWhile p = pyStripRightBy p x := by
  cases hR : pyStripRightBy p x with
  | nil => rfl
  | cons c w =>
      have hpre : ∃ t, x = (c :: w) ++ t := by
        refine ⟨(x.reverse.takeWhile p).reverse, ?_⟩
        have hsplit : x.reverse.takeWhile p ++ x.reverse.dropWhile p = x.reverse :=
          List.takeWhile_append_dropWhile p x.reverse
        have : (x.reverse.takeWhile p ++ x.reverse.dropWhile p).reverse
            = x.reverse.reverse := congrArg List.reverse hsplit
        rw [List.reverse_append, List.reverse_reverse] at this
        have hRrw : (x.reverse.dropWhile p).reverse = c :: w := hR
        rw [hRrw] at this
        exact this.symm
      obtain ⟨t, ht⟩ := hpre
      have hpc : p c = false :=
        head_false_of_dropWhile_eq hx c (w ++ t) (by simpa using ht)
      simp [List.dropWhile_cons, hpc]

theorem pyStripRightBy_idem (p : Char → Bool) (x : Str) :
    pyStripRightBy p (pyStripRightBy p x) = pyStripRightBy p x := by
  unfold pyStripRightBy
  rw [List.reverse_reverse, dropWhile_idem]

theorem pyStripBy_idem (p : Char → Bool) (s : Str) :
    pyStripBy p (pyStripBy p s) = pyStripBy p s := by
  unfold pyStripBy pyStripLeftBy
  have hx : (s.dropWhile p).dropWhile p = s.dropWhile p := dropWhile_idem p s
  rw [dropWhile_pyStripRightBy hx, pyStripRightBy_idem]

theorem pyStrip_idem (s : Str) : pyStrip (pyStrip s) = pyStrip s :=
  pyStripBy_idem isPySpace s

namespace Microfix

theorem loadWords_mem {lines : List Str} {w : Str} (hw : w ∈ loadWords lines) :
    pyStrip w = w ∧ w ≠ [] := by
  unfold loadWords at hw
  rw [List.mem_filter] at hw
  obtain ⟨hw1, hw2⟩ := hw
  rw [List.mem_map] at hw1
  obtain ⟨line, _, rfl⟩ := hw1
  exact ⟨pyStrip_idem line, by simpa using hw2⟩

theorem loadWords_fixed {ws : List Str}
    (h : ∀ w ∈ ws, pyStrip w = w ∧ w ≠ []) : loadWords ws = ws := by
  unfold loadWords
  rw [map_eq_self_of_mem (fun w hw => (h w hw).1)]
  exact List.filter_eq_self.mpr (fun w hw => by simpa using (h w hw).2)

theorem keepWordsAux_sublist (company : Str) :
    ∀ (ws seen : List Str), (keepWordsAux company ws seen).Sublist ws := by
  intro ws
  induction ws with
  | nil => intro seen; exact List.Sublist.refl []
  | cons w ws ih =>
      intro seen
      unfold keepWordsAux
      split_ifs with h1 h2
      · exact (ih seen).cons w
      · exact (ih seen).cons w
      · exact (ih (w :: seen)).cons₂ w

theorem keepWordsAux_mem (company : Str) :
    ∀ (ws seen : List Str), ∀ x ∈ keepWordsAux company ws seen,
      isNoisyWord x company = false ∧ x ∉ seen := by
  intro ws
  induction ws with
  | nil => intro seen x hx; exact absurd hx (by simp [keepWordsAux])
  | cons w ws ih =>
      intro seen x hx
      unfold keepWordsAux at hx
      split_ifs at hx with h1 h2
      · exact ih seen x hx
      · exact ih seen x hx
      · rcases List.mem_cons.mp hx with rfl | hx'
        · exact ⟨by simpa using h1, h2⟩
        · exact ⟨(ih (w :: seen) x hx').1,
            fun hmem => (ih (w :: seen) x hx').2 (List.mem_cons_of_mem w hmem)⟩

theorem keepWordsAux_nodup (company : Str) :
    ∀ (ws seen : List Str), (keepWordsAux company ws seen).Nodup := by
  intro ws
  induction ws with
  | nil => intro seen; simp [keepWordsAux]
  | cons w ws ih =>
      intro seen
      unfold keepWordsAux
      split_ifs with h1 h2
      · exact ih seen
      · exact ih seen
      · refine List.nodup_cons.mpr ⟨?_, ih (w :: seen)⟩
        intro hmem
        exact (keepWordsAux_mem company ws (w :: seen) w hmem).2 (List.mem_cons_self w seen)

theorem keepWordsAux_fixed (company : Str) :
    ∀ (ws seen : List Str),
      (∀ w ∈ ws, isNoisyWord w company = false) → ws.Nodup →
      (∀ w ∈ ws, w ∉ seen) → keepWordsAux company ws seen = ws := by
  intro ws
  induction ws with
  | nil => intro seen _ _ _; rfl
  | cons w ws ih =>
      intro seen hclean hnd hseen
      unfold keepWordsAux
      rw [if_neg, if_neg]
      · congr 1
        refine ih (w :: seen) (fun x hx => hclean x (by simp [hx]))
          (List.nodup_cons.mp hnd).2 ?_
        intro x hx
        rw [List.mem_cons]
        push_neg
        refine ⟨?_, hseen x (by simp [hx])⟩
        intro hxw
        exact absurd (hxw ▸ hx) (List.nodup_cons.mp hnd).1
      · exact hseen w (by simp)
      · simp [hclean w (by simp)]

theorem keepWords_mem {company : Str} {lines : List Str} {w : Str}
    (hw : w ∈ keepWords company lines) :
    pyStrip w = w ∧ w ≠ [] ∧ isNoisyWord w company = false := by
  have hsub := keepWordsAux_sublist company (loadWords lines) []
  have hload := loadWords_mem (hsub.mem hw)
  exact ⟨hload.1, hload.2, (keepWordsAux_mem company (loadWords lines) [] w hw).1⟩

theorem keepWords_nodup (company : Str) (lines : List Str) :
    (keepWords company lines).Nodup :=
  keepWordsAux_nodup company (loadWords lines) []

theorem keepWords_fixed {company : Str} {ws : List Str}
    (h : ∀ w ∈ ws, pyStrip w = w ∧ w ≠ [] ∧ isNoisyWord w company = false)
    (hnd : ws.Nodup) : keepWords company ws = ws := by
  unfold keepWords
  rw [loadWords_fixed (fun w hw => ⟨(h w hw).1, (h w hw).2.1⟩)]
  exact keepWordsAux_fixed company ws [] (fun w hw => (h w hw).2.2) hnd (by simp)

open ExtractTerms (Item companyNameFromDirname)

/-- Shape of the record-loop output: every emitted record is an input
record, possibly with its description dropped; its word is unchanged,
stripped-nonempty and kept; a surviving description is never noisy. -/
theorem itemsOutList_shape {keep : List Str} :
    ∀ (items : List Item), ∀ it' ∈ itemsOutList keep items,
      ∃ it ∈ items, (it' = it ∨ it' = { it with description := none })
        ∧ it'.word = it.word
        ∧ pyStrip it'.word ≠ [] ∧ pyStrip it'.word ∈ keep
        ∧ (it'.description = none
           ∨ ∃ d, it'.description = some d ∧ isNoisyDescription d = false) := by
  intro items
  induction items with
  | nil => intro it' h; exact absurd h (by simp [itemsOutList])
  | cons it rest ih =>
      intro it' hmem
      simp only [itemsOutList] at hmem
      split_ifs at hmem with h1
      · obtain ⟨a, ha, hrest⟩ := ih it' hmem
        exact ⟨a, List.mem_cons_of_mem it ha, hrest⟩
      · push_neg at h1
        cases hd : it.description with
        | none =>
            simp only [hd] at hmem
            rcases List.mem_cons.mp hmem with rfl | hmem'
            · exact ⟨it', List.mem_cons_self it' rest, Or.inl rfl, rfl,
                h1.1, h1.2, Or.inl hd⟩
            · obtain ⟨a, ha, hrest⟩ := ih it' hmem'
              exact ⟨a, List.mem_cons_of_mem it ha, hrest⟩
        | some d =>
            simp only [hd] at hmem
            by_cases hn : isNoisyDescription d
            · rw [if_pos (by simpa using hn)] at hmem
              rcases List.mem_cons.mp hmem with rfl | hmem'
              · exact ⟨it, List.mem_cons_self it rest, Or.inr rfl, rfl,
                  h1.1, h1.2, Or.inl rfl⟩
              · obtain ⟨a, ha, hrest⟩ := ih it' hmem'
                exact ⟨a, List.mem_cons_of_mem it ha, hrest⟩
            · rw [if_neg (by simpa using hn)] at hmem
              rcases List.mem_cons.mp hmem with rfl | hmem'
              · exact ⟨it', List.mem_cons_self it' rest, Or.inl rfl, rfl,
                  h1.1, h1.2, Or.inr ⟨d, hd, by simpa using hn⟩⟩
              · obtain ⟨a, ha, hrest⟩ := ih it' hmem'
                exact ⟨a, List.mem_cons_of_mem it ha, hrest⟩

/-- The record loop leaves a list unchanged when every record's word is
kept and no surviving description is noisy. -/
theorem itemsOutList_fixed {keep : List Str} :
    ∀ (items : List Item),
      (∀ it ∈ items, pyStrip it.word ≠ [] ∧ pyStrip it.word ∈ keep
        ∧ (it.description = none
           ∨ ∃ d, it.description = some d ∧ isNoisyDescription d = false)) →
      itemsOutList keep items = items := by
  intro items
  induction items with
  | nil => intro _; rfl
  | cons it rest ih =>
      intro h
      obtain ⟨hw, hk, hd⟩ := h it (List.mem_cons_self it rest)
      have hrest := ih (fun a ha => h a (List.mem_cons_of_mem it ha))
      simp only [itemsOutList]
      rw [if_neg (by push_neg; exact ⟨hw, hk⟩)]
      rcases hd with hd | ⟨d, hd, hdn⟩
      · simp only [hd, hrest]
      · simp only [hd, hrest]
        rw [if_neg (by simp [hdn])]

theorem find?_eq_of_unique {α : Type _} {p : α → Bool} {l : List α} {x : α}
    (hx : x ∈ l) (hpx : p x = true) (huniq : ∀ y ∈ l, p y = true → y = x) :
    l.find? p = some x := by
  induction l with
  | nil => exact absurd hx (by simp)
  | cons a t ih =>
      rcases List.mem_cons.mp hx with rfl | hx'
      · simp [List.find?_cons, hpx]
      · by_cases hpa : p a = true
        · have := huniq a (List.mem_cons_self a t) hpa
          subst this
          simp [List.find?_cons, hpa]
        · rw [Bool.not_eq_true] at hpa
          simp only [List.find?_cons, hpa]
          exact ih hx' (fun y hy => huniq y (List.mem_cons_of_mem a hy))

theorem find?_word_exists {outs : List Item} {w : Str}
    (h : ∃ it ∈ outs, it.word = w) :
    ∃ it, outs.find? (fun i => i.word = w) = some it ∧ it.word = w := by
  obtain ⟨it, hmem, hw⟩ := h
  induction outs with
  | nil => exact absurd hmem (by simp)
  | cons a t ih =>
      by_cases ha : a.word = w
      · exact ⟨a, by simp [List.find?_cons, ha], ha⟩
      · rcases List.mem_cons.mp hmem with rfl | hmem'
        · exact absurd hw ha
        · obtain ⟨b, hb, hbw⟩ := ih hmem'
          refine ⟨b, ?_, hbw⟩
          simp [List.find?_cons, ha, hb]

/-- When every kept word has a record, the synchronized record list's words
are exactly the kept words. -/
theorem itemsOrdered_words {kw : List Str} {outs : List Item}
    (h : ∀ w ∈ kw, ∃ it ∈ outs, it.word = w) :
    (itemsOrdered kw outs).map (fun it => it.word) = kw := by
  induction kw with
  | nil => rfl
  | cons w kw' ih =>
      obtain ⟨it, hfind, hw⟩ := find?_word_exists (h w (List.mem_cons_self w kw'))
      unfold itemsOrdered
      rw [List.filterMap_cons]
      simp only [hfind]
      rw [List.map_cons]
      have := ih (fun x hx => h x (List.mem_cons_of_mem w hx))
      unfold itemsOrdered at this
      rw [this, hw]

theorem itemsOrdered_mem {kw : List Str} {outs : List Item} {it : Item}
    (h : it ∈ itemsOrdered kw outs) :
    it ∈ outs ∧ it.word ∈ kw := by
  unfold itemsOrdered at h
  rw [List.mem_filterMap] at h
  obtain ⟨w, hw, hfind⟩ := h
  refine ⟨List.mem_of_find?_eq_some hfind, ?_⟩
  have := List.find?_some hfind
  simp only [decide_eq_true_eq] at this
  rwa [this]

/-- Applying the ordering step to its own output changes nothing, provided
the kept word list has no duplicates. -/
theorem itemsOrdered_idem (kw : List Str) (outs : List Item) :
    itemsOrdered kw (itemsOrdered kw outs) = itemsOrdered kw outs := by
  unfold itemsOrdered
  refine List.filterMap_congr ?_
  intro w hwkw
  rcases hfw : outs.find? (fun i => i.word = w) with _ | it
  · rw [hfw, List.find?_eq_none]
    intro y hy
    have hmem := itemsOrdered_mem (show y ∈ itemsOrdered kw outs by
      unfold itemsOrdered; exact hy)
    rw [List.find?_eq_none] at hfw
    simp only [decide_eq_true_eq]
    intro hyw
    exact absurd (by simpa using hyw) (hfw y hmem.1)
  · have hitw : it.word = w := by
      have := List.find?_some hfw
      simpa using this
    rw [hfw]
    refine find?_eq_of_unique ?_ (by simpa using hitw) ?_
    · rw [List.mem_filterMap]
      exact ⟨w, hwkw, hfw⟩
    · intro y hy hyw
      rw [List.mem_filterMap] at hy
      obtain ⟨w', hw', hfind'⟩ := hy
      have hyw' : y.word = w' := by
        have := List.find?_some hfind'
        simpa using this
      simp only [decide_eq_true_eq] at hyw
      have hww : w' = w := by rw [← hyw', hyw]
      subst hww
      rw [hfw] at hfind'
      exact (Option.some.inj hfind').symm

end Microfix

/-- C6: the refinement filter is idempotent on the persisted artifacts: a
second application of `microfix_company` to the word list and record list
produced by a first application changes neither. -/
theorem c6_microfix_idempotent (dirname : Str) (lines : List Str)
    (items : List ExtractTerms.Item) :
    Microfix.microfixCompany dirname
        (Microfix.microfixCompany dirname lines items).1
        (Microfix.microfixCompany dirname lines items).2
      = Microfix.microfixCompany dirname lines items := by
  unfold Microfix.microfixCompany
  simp only []
  have hfix : Microfix.keepWords (ExtractTerms.companyNameFromDirname dirname)
      (Microfix.keepWords (ExtractTerms.companyNameFromDirname dirname) lines)
      = Microfix.keepWords (ExtractTerms.companyNameFromDirname dirname) lines :=
    Microfix.keepWords_fixed (fun _ hw => Microfix.keepWords_mem hw)
      (Microfix.keepWords_nodup _ _)
  rw [hfix]
  have hout : Microfix.itemsOutList
      (Microfix.keepWords (ExtractTerms.companyNameFromDirname dirname) lines)
      (Microfix.itemsOrdered
        (Microfix.keepWords (ExtractTerms.companyNameFromDirname dirname) lines)
        (Microfix.itemsOutList
          (Microfix.keepWords (ExtractTerms.companyNameFromDirname dirname) lines) items))
      = Microfix.itemsOrdered
          (Microfix.keepWords (ExtractTerms.companyNameFromDirname dirname) lines)
          (Microfix.itemsOutList
            (Microfix.keepWords (ExtractTerms.companyNameFromDirname dirname) lines) items) := by
    refine Microfix.itemsOutList_fixed _ ?_
    intro it hit
    have hmem := Microfix.itemsOrdered_mem hit
    obtain ⟨_, _, hshape⟩ := Microfix.itemsOutList_shape _ it hmem.1
    exact ⟨hshape.2.2.1, hshape.2.2.2.1, hshape.2.2.2.2⟩
  rw [hout, Microfix.itemsOrdered_idem]

namespace Microfix

open ExtractTerms (Item)

/-- The record loop keeps (a possibly description-stripped copy of) every
record whose stripped word is non-empty and kept. -/
theorem mem_itemsOutList_of {keep : List Str} :
    ∀ {items : List Item} {it : Item}, it ∈ items →
      pyStrip it.word ≠ [] → pyStrip it.word ∈ keep →
      (match it.description with
       | some d => if isNoisyDescription d then { it with description := none } else it
       | none => it) ∈ itemsOutList keep items := by
  intro items
  induction items with
  | nil => intro it h; exact absurd h (by simp)
  | cons a rest ih =>
      intro it hmem hw hk
      simp only [itemsOutList]
      rcases List.mem_cons.mp hmem with rfl | hmem'
      · rw [if_neg (by push_neg; exact ⟨hw, hk⟩)]
        exact List.mem_cons_self _ _
      · split_ifs with h1
        · exact ih hmem' hw hk
        · exact List.mem_cons_of_mem _ (ih hmem' hw hk)

end Microfix

/-- C9: in pass 2, a surviving record whose description is judged noisy is
kept with only the `description` field removed; its word and every metadata
field are unchanged (record lists with duplicate words keep only the first
record per word, so the record is assumed to be uniquely identified by its
word). -/
theorem c9_description_drop_only (dirname : Str) (lines : List Str)
    (items : List ExtractTerms.Item) (it : ExtractTerms.Item) (d : Str)
    (hnd : (items.map (fun i => i.word)).Nodup)
    (hmem : it ∈ items)
    (hfix : pyStrip it.word = it.word)
    (hkeep : it.word ∈ Microfix.keepWords
      (ExtractTerms.companyNameFromDirname dirname) lines)
    (hdesc : it.description = some d)
    (hnoisy : Microfix.isNoisyDescription d = true) :
    { it with description := none } ∈ (Microfix.microfixCompany dirname lines items).2 := by
  have hwne : it.word ≠ [] :=
    (Microfix.keepWords_mem hkeep).2.1
  have hw' : pyStrip it.word ≠ [] := by rw [hfix]; exact hwne
  have hk' : pyStrip it.word ∈ Microfix.keepWords
      (ExtractTerms.companyNameFromDirname dirname) lines := by rw [hfix]; exact hkeep
  have houts := Microfix.mem_itemsOutList_of hmem hw' hk'
  simp only [hdesc, hnoisy, if_true] at houts
  -- membership in the ordered output via the kept word list
  unfold Microfix.microfixCompany
  simp only [Microfix.itemsOrdered, List.mem_filterMap]
  refine ⟨it.word, hkeep, ?_⟩
  refine Microfix.find?_eq_of_unique houts (by simp) ?_
  intro y hy hyw
  simp only [decide_eq_true_eq] at hyw
  obtain ⟨a, ha, hor, hword, hne2, hk2, hdy⟩ :=
    Microfix.itemsOutList_shape _ y hy
  have haw : a.word = it.word := by rw [← hword, hyw]
  have hai : a = it :=
    List.inj_on_of_nodup_map hnd ha hmem haw
  subst hai
  rcases hor with rfl | rfl
  · rcases hdy with h0 | ⟨d', hd', hdn'⟩
    · rw [hdesc] at h0
      exact absurd h0 (by simp)
    · rw [hdesc] at hd'
      have hdd : d = d' := Option.some.inj hd'
      subst hdd
      rw [hnoisy] at hdn'
      exact absurd hdn' (by simp)
  · rfl

/-- Input record used by the C9 witness. -/
def c9InItem : ExtractTerms.Item :=
  ⟨("売上高").data, some (("短い").data), ("名詞").data, ("Metric").data,
   some (("PL").data), ("有価証券報告書").data, ("テスト").data⟩

/-- Witness for C9: a record for 売上高 whose description 短い is noisy
(shorter than 10 characters) is kept with only the description removed. -/
theorem c9_description_drop_only_witness :
    (([c9InItem].map (fun i => i.word)).Nodup)
    ∧ c9InItem ∈ [c9InItem]
    ∧ pyStrip c9InItem.word = c9InItem.word
    ∧ c9InItem.word ∈ Microfix.keepWords
        (ExtractTerms.companyNameFromDirname (("1_テスト").data)) [("売上高").data]
    ∧ c9InItem.description = some (("短い").data)
    ∧ Microfix.isNoisyDescription (("短い").data) = true
    ∧ { c9InItem with description := none }
        ∈ (Microfix.microfixCompany (("1_テスト").data) [("売上高").data] [c9InItem]).2 :=
  ⟨by decide, by decide, by decide, by decide, by decide, by decide,
   c9_description_drop_only (("1_テスト").data) [("売上高").data] [c9InItem] c9InItem
     (("短い").data) (by decide) (by decide) (by decide) (by decide) (by decide)
     (by decide)⟩

/-- C10: `microfix_company` never invents content: the output word list is
a duplicate-free subsequence of the loaded input word list, and every
output record is an input record, possibly with only its `description`
field removed. -/
theorem c10_no_invention (dirname : Str) (lines : List Str)
    (items : List ExtractTerms.Item) :
    ((Microfix.microfixCompany dirname lines items).1).Sublist
        (Microfix.loadWords lines)
    ∧ ((Microfix.microfixCompany dirname lines items).1).Nodup
    ∧ ∀ it' ∈ (Microfix.microfixCompany dirname lines items).2,
        ∃ it ∈ items, it' = it ∨ it' = { it with description := none } := by
  refine ⟨Microfix.keepWordsAux_sublist _ _ _, Microfix.keepWords_nodup _ _, ?_⟩
  intro it' hmem
  have h1 := (Microfix.itemsOrdered_mem hmem).1
  obtain ⟨it, hit, hor, -⟩ := Microfix.itemsOutList_shape _ it' h1
  exact ⟨it, hit, hor⟩

/-- Record used by the C10 witness. -/
def c10Item : ExtractTerms.Item :=
  ⟨("売上高").data, none, ("名詞").data, ("Metric").data,
   some (("PL").data), ("有価証券報告書").data, ("テスト").data⟩

/-- Witness for C10 at a one-word artifact pair. -/
theorem c10_no_invention_witness :
    c10Item ∈ (Microfix.microfixCompany (("1_テスト").data)
        [("売上高").data] [c10Item]).2
    ∧ ∃ it ∈ [c10Item],
        c10Item = it ∨ c10Item = { it with description := none } :=
  ⟨by decide,
   (c10_no_invention (("1_テスト").data) [("売上高").data] [c10Item]).2.2
     c10Item (by decide)⟩

/-- No character of `s` is whitespace. -/
def wsFree (s : Str) : Prop := ∀ c ∈ s, isPySpace c = false

instance (s : Str) : Decidable (wsFree s) :=
  inferInstanceAs (Decidable (∀ c ∈ s, isPySpace c = false))

theorem wsFree_of_sub {s s' : Str} (hsub : ∀ c ∈ s', c ∈ s) (h : wsFree s) :
    wsFree s' := fun c hc => h c (hsub c hc)

theorem wsFree_dropWhile (p : Char → Bool) {s : Str} (h : wsFree s) :
    wsFree (s.dropWhile p) :=
  wsFree_of_sub (fun c hc => (@List.dropWhile_sublist Char s p).mem hc) h

theorem wsFree_reverse {s : Str} (h : wsFree s) : wsFree s.reverse :=
  wsFree_of_sub (fun c hc => List.mem_reverse.mp hc) h

theorem wsFree_pyStripBy (p : Char → Bool) {s : Str} (h : wsFree s) :
    wsFree (pyStripBy p s) := by
  unfold pyStripBy pyStripLeftBy pyStripRightBy
  exact wsFree_reverse (wsFree_dropWhile p (wsFree_reverse (wsFree_dropWhile p h)))

theorem wsFree_flatten {xs : List Str} (h : ∀ x ∈ xs, wsFree x) :
    wsFree xs.flatten := by
  intro c hc
  rw [List.mem_flatten] at hc
  obtain ⟨x, hx, hcx⟩ := hc
  exact h x hx c hcx

theorem dropWhile_eq_self_of_wsFree {s : Str} (h : wsFree s) :
    s.dropWhile isPySpace = s := by
  cases s with
  | nil => rfl
  | cons a t => simp [List.dropWhile_cons, h a (List.mem_cons_self a t)]

theorem pyStrip_eq_self_of_wsFree {s : Str} (h : wsFree s) : pyStrip s = s := by
  unfold pyStrip pyStripBy pyStripLeftBy pyStripRightBy
  rw [dropWhile_eq_self_of_wsFree h,
    dropWhile_eq_self_of_wsFree (wsFree_reverse h), List.reverse_reverse]

namespace ExtractTerms

theorem normalizeTerm_wsFree {nfkc : Str → Str} {raw : Str}
    (hnfkc : ∀ s, wsFree s → wsFree (nfkc s)) (hraw : wsFree raw) :
    wsFree (normalizeTerm nfkc raw) := by
  unfold normalizeTerm stripConnectors
  exact wsFree_pyStripBy _ (wsFree_pyStripBy _ (hnfkc raw hraw))

theorem flushSegment_wsFree {seg : List (Str × Kind)}
    (h : ∀ p ∈ seg, wsFree p.1) : ∀ c ∈ flushSegment seg, wsFree c := by
  induction seg with
  | nil => intro c hc; exact absurd hc (by simp [flushSegment])
  | cons sk rest ih =>
      intro c hc
      rw [flushSegment, List.mem_append] at hc
      rcases hc with hc | hc
      · rw [mem_emitAt] at hc
        rcases hc with ⟨-, -, rfl⟩ | ⟨-, -, -, rfl⟩
        · exact h sk (List.mem_cons_self sk rest)
        · unfold phraseOf stripConnectors joinSurfaces
          refine wsFree_pyStripBy _ (wsFree_pyStripBy _ (wsFree_flatten ?_))
          intro x hx
          rw [List.mem_map] at hx
          obtain ⟨q, hq, rfl⟩ := hx
          exact h q (List.mem_of_mem_take hq)
      · exact ih (fun p hp => h p (List.mem_cons_of_mem sk hp)) c hc

theorem extractCandidatesAux_wsFree :
    ∀ (tokens : List Token) (seg : List (Str × Kind)),
      (∀ t ∈ tokens, wsFree t.surface) → (∀ p ∈ seg, wsFree p.1) →
      ∀ c ∈ extractCandidatesAux tokens seg, wsFree c := by
  intro tokens
  induction tokens with
  | nil => intro seg _ hseg c hc; exact flushSegment_wsFree hseg c hc
  | cons t ts ih =>
      intro seg htok hseg c hc
      unfold extractCandidatesAux at hc
      rcases hk : tokenKind t with _ | k
      · simp only [hk] at hc
        rw [List.mem_append] at hc
        rcases hc with hc | hc
        · exact flushSegment_wsFree hseg c hc
        · exact ih [] (fun x hx => htok x (List.mem_cons_of_mem t hx)) (by simp) c hc
      · simp only [hk] at hc
        refine ih (seg ++ [(t.surface, k)])
          (fun x hx => htok x (List.mem_cons_of_mem t hx)) ?_ c hc
        intro p hp
        rcases List.mem_append.mp hp with hp | hp
        · exact hseg p hp
        · rw [List.mem_singleton] at hp
          subst hp
          exact htok t (List.mem_cons_self t ts)

theorem extractCandidates_wsFree {tokens : List Token}
    (htok : ∀ t ∈ tokens, wsFree t.surface) :
    ∀ c ∈ extractCandidates tokens, wsFree c :=
  extractCandidatesAux_wsFree tokens [] htok (by simp)

end ExtractTerms

namespace ExtractTerms

theorem counterBump_fst (m : List (Str × Nat)) (t : Str) :
    (counterBump m t).map Prod.fst
      = if t ∈ m.map Prod.fst then m.map Prod.fst else m.map Prod.fst ++ [t] := by
  induction m with
  | nil => simp [counterBump]
  | cons p rest ih =>
      obtain ⟨k, v⟩ := p
      by_cases hkt : k = t
      · subst hkt
        simp [counterBump]
      · simp only [counterBump, if_neg hkt, List.map_cons, ih]
        by_cases hmem : t ∈ rest.map Prod.fst
        · rw [if_pos hmem, if_pos (by simp [hmem])]
        · have hnm : t ∉ k :: rest.map Prod.fst := by
            simp only [List.mem_cons, not_or]
            exact ⟨fun h => hkt h.symm, hmem⟩
          rw [if_neg hmem, if_neg hnm, List.cons_append]

theorem counterBump_keys_ok {P : Str → Prop} {m : List (Str × Nat)} {t : Str}
    (hm : ∀ k ∈ m.map Prod.fst, P k) (ht : P t) :
    ∀ k ∈ (counterBump m t).map Prod.fst, P k := by
  intro k hk
  rw [counterBump_fst] at hk
  split_ifs at hk with h
  · exact hm k hk
  · rcases List.mem_append.mp hk with hk | hk
    · exact hm k hk
    · rw [List.mem_singleton] at hk
      subst hk
      exact ht

theorem counterBump_keys_nodup {m : List (Str × Nat)} {t : Str}
    (hm : (m.map Prod.fst).Nodup) : ((counterBump m t).map Prod.fst).Nodup := by
  rw [counterBump_fst]
  split_ifs with h
  · exact hm
  · rw [List.nodup_append]
    exact ⟨hm, List.nodup_singleton t, by simpa [List.disjoint_singleton] using h⟩

/-- Invariant of the per-company counting state: every counter key is an
accepted whitespace-free term, and the keys are distinct. -/
def stInv (nfkc : Str → Str) (company : Str)
    (st : List (Str × Nat) × List (Str × Str)) : Prop :=
  (∀ k ∈ st.1.map Prod.fst, looksBad nfkc k company = false ∧ wsFree k)
  ∧ (st.1.map Prod.fst).Nodup

theorem stepTerm_inv {nfkc : Str → Str} {company pageText raw : Str}
    {st : List (Str × Nat) × List (Str × Str)}
    (hnfkc : ∀ s, wsFree s → wsFree (nfkc s)) (hraw : wsFree raw)
    (hst : stInv nfkc company st) :
    stInv nfkc company (stepTerm nfkc company pageText st raw) := by
  simp only [stepTerm]
  split_ifs with hbad
  · exact hst
  all_goals exact ⟨counterBump_keys_ok hst.1
    ⟨by simpa using hbad, normalizeTerm_wsFree hnfkc hraw⟩,
    counterBump_keys_nodup hst.2⟩

theorem foldl_stepTerm_inv {nfkc : Str → Str} {company pageText : Str}
    {st : List (Str × Nat) × List (Str × Str)} {raws : List Str}
    (hnfkc : ∀ s, wsFree s → wsFree (nfkc s)) (hraws : ∀ r ∈ raws, wsFree r)
    (hst : stInv nfkc company st) :
    stInv nfkc company (raws.foldl (stepTerm nfkc company pageText) st) := by
  induction raws generalizing st with
  | nil => exact hst
  | cons r rs ih =>
      exact ih (fun x hx => hraws x (List.mem_cons_of_mem r hx))
        (stepTerm_inv hnfkc (hraws r (List.mem_cons_self r rs)) hst)

theorem stepPage_inv {nfkc : Str → Str} {company : Str} {pg : Page}
    {st : List (Str × Nat) × List (Str × Str)}
    (hnfkc : ∀ s, wsFree s → wsFree (nfkc s))
    (htok : ∀ t ∈ pg.tokens, wsFree t.surface)
    (hst : stInv nfkc company st) :
    stInv nfkc company (stepPage nfkc company st pg) := by
  unfold stepPage
  split_ifs with h
  · exact hst
  · exact foldl_stepTerm_inv hnfkc (extractCandidates_wsFree htok) hst

theorem foldl_stepPage_inv {nfkc : Str → Str} {company : Str}
    {pages : List Page} {st : List (Str × Nat) × List (Str × Str)}
    (hnfkc : ∀ s, wsFree s → wsFree (nfkc s))
    (htok : ∀ p ∈ pages, ∀ t ∈ p.tokens, wsFree t.surface)
    (hst : stInv nfkc company st) :
    stInv nfkc company (pages.foldl (stepPage nfkc company) st) := by
  induction pages generalizing st with
  | nil => exact hst
  | cons p ps ih =>
      exact ih (fun q hq => htok q (List.mem_cons_of_mem p hq))
        (stepPage_inv hnfkc (htok p (List.mem_cons_self p ps)) hst)

theorem stepDoc_inv {nfkc : Str → Str} {company : Str} {d : Doc} {st : CState}
    (hnfkc : ∀ s, wsFree s → wsFree (nfkc s))
    (htok : ∀ p ∈ d.pages, ∀ t ∈ p.tokens, wsFree t.surface)
    (hst : stInv nfkc company (st.counter, st.firstContext)) :
    stInv nfkc company
      ((stepDoc nfkc company st d).counter, (stepDoc nfkc company st d).firstContext) := by
  unfold stepDoc
  split_ifs with h
  · exact hst
  · exact foldl_stepPage_inv hnfkc htok hst

theorem processDocs_inv {nfkc : Str → Str} {company : Str} {docs : List Doc}
    (hnfkc : ∀ s, wsFree s → wsFree (nfkc s))
    (htok : ∀ d ∈ docs, ∀ p ∈ d.pages, ∀ t ∈ p.tokens, wsFree t.surface) :
    stInv nfkc company
      ((processDocs nfkc company docs).counter,
       (processDocs nfkc company docs).firstContext) := by
  unfold processDocs
  have hgen : ∀ (ds : List Doc) (st : CState),
      (∀ d ∈ ds, ∀ p ∈ d.pages, ∀ t ∈ p.tokens, wsFree t.surface) →
      stInv nfkc company (st.counter, st.firstContext) →
      stInv nfkc company
        ((ds.foldl (stepDoc nfkc company) st).counter,
         (ds.foldl (stepDoc nfkc company) st).firstContext) := by
    intro ds
    induction ds with
    | nil => intro st _ hst; exact hst
    | cons d rest ih =>
        intro st hds hst
        exact ih _ (fun x hx => hds x (List.mem_cons_of_mem d hx))
          (stepDoc_inv hnfkc (hds d (List.mem_cons_self d rest)) hst)
  exact hgen docs emptyCState htok ⟨by simp [emptyCState], by simp [emptyCState]⟩

theorem selectTerms_mem {m : List (Str × Nat)} {t : Str}
    (ht : t ∈ selectTerms m) : t ∈ m.map Prod.fst := by
  unfold selectTerms selectPairs at ht
  rw [List.mem_map] at ht
  obtain ⟨p, hp, rfl⟩ := ht
  have hp1 := List.mem_of_mem_take hp
  rw [List.mem_insertionSort] at hp1
  split_ifs at hp1 with h
  · exact List.mem_map_of_mem Prod.fst (List.mem_of_mem_filter hp1)
  · exact List.mem_map_of_mem Prod.fst hp1

theorem selectTerms_nodup {m : List (Str × Nat)}
    (hm : (m.map Prod.fst).Nodup) : (selectTerms m).Nodup := by
  simp only [selectTerms, selectPairs]
  rw [List.map_take]
  refine List.Nodup.sublist (List.take_sublist _ _) ?_
  refine (List.Perm.nodup_iff (List.Perm.map Prod.fst
    (List.perm_insertionSort rankLE _))).mpr ?_
  split_ifs with h
  · exact List.Nodup.sublist (List.Sublist.map Prod.fst (List.filter_sublist m)) hm
  · exact hm

end ExtractTerms

namespace ExtractTerms

theorem accepted_ne_nil {nfkc : Str → Str} {t company : Str}
    (h : looksBad nfkc t company = false) : t ≠ [] := by
  intro heq
  subst heq
  simp [looksBad] at h

theorem processCompanyDir_terms {nfkc : Str → Str} {dirname : Str}
    {docs : List Doc} (h : docs ≠ []) :
    (processCompanyDir nfkc dirname docs).terms
      = selectTerms (processDocs nfkc (companyNameFromDirname dirname) docs).counter := by
  simp only [processCompanyDir, if_neg h]

theorem processCompanyDir_entries {nfkc : Str → Str} {dirname : Str}
    {docs : List Doc} (h : docs ≠ []) :
    (processCompanyDir nfkc dirname docs).entries
      = some ((selectTerms
            (processDocs nfkc (companyNameFromDirname dirname) docs).counter).map
          (mkEntry (processDocs nfkc (companyNameFromDirname dirname) docs).firstContext
            (companyNameFromDirname dirname))) := by
  simp only [processCompanyDir, if_neg h]

/-- The record transformation of the pass-2 loop preserves the word. -/
theorem transported_word (it : Item) :
    (match it.description with
     | some d => if Microfix.isNoisyDescription d then { it with description := none } else it
     | none => it).word = it.word := by
  cases it.description with
  | none => rfl
  | some d =>
      by_cases h : Microfix.isNoisyDescription d <;> simp [h]

end ExtractTerms

/-- C1: the artifact-synchronisation claim fails on the no-document case:
there `process_company_dir` returns a result without an `entries` key, and
`write_outputs` writes `wordList.txt` and then raises `KeyError` before
`wordList.jsonl` is written, leaving the two artifacts out of sync (first
conjunct).  For every input with at least one document the claim holds:
the pass-1 word list and record list carry exactly the same words in the
same order with no duplicates, and applying the pass-2 refinement to those
artifacts again yields a word list and record list carrying exactly the
same words in the same order with no duplicates (second conjunct).  The
tokenizer hands over whitespace-free surfaces and NFKC normalization
preserves whitespace-freeness. -/
theorem c1_artifact_sync (nfkc : Str → Str) (dirname : Str)
    (docs : List ExtractTerms.Doc)
    (hnfkc : ∀ s, wsFree s → wsFree (nfkc s))
    (hdocs : ∀ d ∈ docs, ∀ p ∈ d.pages, ∀ t ∈ p.tokens, wsFree t.surface) :
    ExtractTerms.writeOutputs (ExtractTerms.processCompanyDir nfkc dirname [])
      = { wordTxt := some [], jsonl := none, raised := true }
    ∧ (docs ≠ [] →
        ∃ es, (ExtractTerms.processCompanyDir nfkc dirname docs).entries = some es
          ∧ es.map (fun e => e.word)
              = (ExtractTerms.processCompanyDir nfkc dirname docs).terms
          ∧ (ExtractTerms.processCompanyDir nfkc dirname docs).terms.Nodup
          ∧ (Microfix.microfixCompany dirname
                (ExtractTerms.processCompanyDir nfkc dirname docs).terms es).2.map
                (fun e => e.word)
              = (Microfix.microfixCompany dirname
                  (ExtractTerms.processCompanyDir nfkc dirname docs).terms es).1
          ∧ (Microfix.microfixCompany dirname
                (ExtractTerms.processCompanyDir nfkc dirname docs).terms es).1.Nodup) := by
  refine ⟨rfl, fun hempty => ?_⟩
  have hterms := @ExtractTerms.processCompanyDir_terms nfkc dirname docs hempty
  have hentries := @ExtractTerms.processCompanyDir_entries nfkc dirname docs hempty
  have hInv := @ExtractTerms.processDocs_inv nfkc
    (ExtractTerms.companyNameFromDirname dirname) docs hnfkc hdocs
  have hok : ∀ t ∈ (ExtractTerms.processCompanyDir nfkc dirname docs).terms,
      ExtractTerms.looksBad nfkc t (ExtractTerms.companyNameFromDirname dirname) = false
      ∧ wsFree t := by
    intro t ht
    rw [hterms] at ht
    have hmem := ExtractTerms.selectTerms_mem ht
    rw [List.mem_map] at hmem
    obtain ⟨p, hp, rfl⟩ := hmem
    exact hInv.1 p.1 (List.mem_map_of_mem Prod.fst hp)
  have hnodup : (ExtractTerms.processCompanyDir nfkc dirname docs).terms.Nodup := by
    rw [hterms]
    exact ExtractTerms.selectTerms_nodup hInv.2
  refine ⟨(ExtractTerms.selectTerms
      (ExtractTerms.processDocs nfkc (ExtractTerms.companyNameFromDirname dirname)
        docs).counter).map
      (ExtractTerms.mkEntry
        (ExtractTerms.processDocs nfkc (ExtractTerms.companyNameFromDirname dirname)
          docs).firstContext (ExtractTerms.companyNameFromDirname dirname)),
    hentries, ?_, hnodup, ?_, Microfix.keepWords_nodup _ _⟩
  · rw [hterms, List.map_map]
    exact map_eq_self_of_mem (fun t _ => rfl)
  · -- pass 2 synchronisation
    have hload : Microfix.loadWords
        (ExtractTerms.processCompanyDir nfkc dirname docs).terms
        = (ExtractTerms.processCompanyDir nfkc dirname docs).terms :=
      Microfix.loadWords_fixed (fun w hw =>
        ⟨pyStrip_eq_self_of_wsFree (hok w hw).2,
         ExtractTerms.accepted_ne_nil (hok w hw).1⟩)
    have hkwsub : ∀ w ∈ Microfix.keepWords (ExtractTerms.companyNameFromDirname dirname)
        (ExtractTerms.processCompanyDir nfkc dirname docs).terms,
        w ∈ (ExtractTerms.processCompanyDir nfkc dirname docs).terms := by
      intro w hw
      have := (Microfix.keepWordsAux_sublist (ExtractTerms.companyNameFromDirname dirname)
        (Microfix.loadWords (ExtractTerms.processCompanyDir nfkc dirname docs).terms) []).mem hw
      rwa [hload] at this
    have hexists : ∀ w ∈ Microfix.keepWords (ExtractTerms.companyNameFromDirname dirname)
        (ExtractTerms.processCompanyDir nfkc dirname docs).terms,
        ∃ it ∈ Microfix.itemsOutList
          (Microfix.keepWords (ExtractTerms.companyNameFromDirname dirname)
            (ExtractTerms.processCompanyDir nfkc dirname docs).terms)
          ((ExtractTerms.selectTerms
              (ExtractTerms.processDocs nfkc (ExtractTerms.companyNameFromDirname dirname)
                docs).counter).map
            (ExtractTerms.mkEntry
              (ExtractTerms.processDocs nfkc (ExtractTerms.companyNameFromDirname dirname)
                docs).firstContext (ExtractTerms.companyNameFromDirname dirname))),
          it.word = w := by
      intro w hw
      have hwterms := hkwsub w hw
      have hwfix : pyStrip w = w := pyStrip_eq_self_of_wsFree (hok w hwterms).2
      have hwsel : w ∈ ExtractTerms.selectTerms
          (ExtractTerms.processDocs nfkc (ExtractTerms.companyNameFromDirname dirname)
            docs).counter := by
        rw [← hterms]
        exact hwterms
      have hemem : ExtractTerms.mkEntry
          (ExtractTerms.processDocs nfkc (ExtractTerms.companyNameFromDirname dirname)
            docs).firstContext (ExtractTerms.companyNameFromDirname dirname) w
          ∈ (ExtractTerms.selectTerms
              (ExtractTerms.processDocs nfkc (ExtractTerms.companyNameFromDirname dirname)
                docs).counter).map
            (ExtractTerms.mkEntry
              (ExtractTerms.processDocs nfkc (ExtractTerms.companyNameFromDirname dirname)
                docs).firstContext (ExtractTerms.companyNameFromDirname dirname)) :=
        List.mem_map_of_mem _ hwsel
      refine ⟨_, Microfix.mem_itemsOutList_of hemem ?_ ?_, ?_⟩
      · rw [show (ExtractTerms.mkEntry
            (ExtractTerms.processDocs nfkc (ExtractTerms.companyNameFromDirname dirname)
              docs).firstContext (ExtractTerms.companyNameFromDirname dirname) w).word = w
          from rfl, hwfix]
        exact ExtractTerms.accepted_ne_nil (hok w hwterms).1
      · rw [show (ExtractTerms.mkEntry
            (ExtractTerms.processDocs nfkc (ExtractTerms.companyNameFromDirname dirname)
              docs).firstContext (ExtractTerms.companyNameFromDirname dirname) w).word = w
          from rfl, hwfix]
        exact hw
      · rw [ExtractTerms.transported_word]
        rfl
    exact Microfix.itemsOrdered_words hexists

/-- Document used by the C1 witness: one page with one noun token. -/
def c1Doc : ExtractTerms.Doc :=
  ⟨("a.pdf").data,
   [⟨("当社の売上高は増加した。").data,
     [⟨("売上高").data, ("名詞").data, ("一般").data⟩]⟩]⟩

/-- Witness for C1 at a one-document input with the identity normalization:
the no-document conjunct is exercised at the same directory name, and the
synchronisation conjunct at the non-empty document list. -/
theorem c1_artifact_sync_witness :
    (∀ s, wsFree s → wsFree ((fun x : Str => x) s))
    ∧ (∀ d ∈ [c1Doc], ∀ p ∈ d.pages, ∀ t ∈ p.tokens, wsFree t.surface)
    ∧ ([c1Doc] ≠ ([] : List ExtractTerms.Doc))
    ∧ ExtractTerms.writeOutputs
        (ExtractTerms.processCompanyDir (fun x : Str => x) (("1_テスト").data) [])
        = { wordTxt := some [], jsonl := none, raised := true }
    ∧ (∃ es, (ExtractTerms.processCompanyDir (fun x : Str => x) (("1_テスト").data)
            [c1Doc]).entries = some es
        ∧ es.map (fun e => e.word)
            = (ExtractTerms.processCompanyDir (fun x : Str => x) (("1_テスト").data)
                [c1Doc]).terms
        ∧ (ExtractTerms.processCompanyDir (fun x : Str => x) (("1_テスト").data)
            [c1Doc]).terms.Nodup
        ∧ (Microfix.microfixCompany (("1_テスト").data)
              (ExtractTerms.processCompanyDir (fun x : Str => x) (("1_テスト").data)
                [c1Doc]).terms es).2.map (fun e => e.word)
            = (Microfix.microfixCompany (("1_テスト").data)
                (ExtractTerms.processCompanyDir (fun x : Str => x) (("1_テスト").data)
                  [c1Doc]).terms es).1
        ∧ (Microfix.microfixCompany (("1_テスト").data)
              (ExtractTerms.processCompanyDir (fun x : Str => x) (("1_テスト").data)
                [c1Doc]).terms es).1.Nodup) :=
  ⟨fun _ h => h, by decide, by decide,
   (c1_artifact_sync (fun x : Str => x) (("1_テスト").data) [c1Doc]
     (fun _ h => h) (by decide)).1,
   (c1_artifact_sync (fun x : Str => x) (("1_テスト").data) [c1Doc]
     (fun _ h => h) (by decide)).2 (by decide)⟩

namespace ExtractTerms

/-- The accepted normalized occurrences contributed by a list of raw
candidates (the body of the candidate loop, lines 411-415). -/
def acceptedOccs (nfkc : Str → Str) (company : Str) (raws : List Str) : List Str :=
  raws.filterMap (fun raw =>
    let t := normalizeTerm nfkc raw
    if looksBad nfkc t company then none else some t)

/-- The accepted occurrences a page contributes (empty pages are skipped). -/
def pageOccs (nfkc : Str → Str) (company : Str) (pg : Page) : List Str :=
  if pg.text = [] then [] else acceptedOccs nfkc company (extractCandidates pg.tokens)

/-- The context a page yields for a term, `None` unless `_extract_context`
returns a truthy snippet (the `if ctx:` test). -/
def ctxValid (text t : Str) : Option Str :=
  match extractContext text t with
  | some c => if c ≠ [] then some c else none
  | none => none

theorem lookupFC_cons (p : Str × Str) (rest : List (Str × Str)) (t : Str) :
    lookupFC (p :: rest) t = if p.1 = t then some p.2 else lookupFC rest t := by
  unfold lookupFC
  rw [List.find?_cons]
  by_cases hp : p.1 = t
  · simp [hp]
  · simp [hp]

theorem lookupFC_append_left {m l : List (Str × Str)} {t : Str} {v : Str}
    (h : lookupFC m t = some v) : lookupFC (m ++ l) t = some v := by
  induction m with
  | nil => simp [lookupFC] at h
  | cons p rest ih =>
      rw [List.cons_append, lookupFC_cons] at *
      by_cases hp : p.1 = t
      · rwa [if_pos hp] at h ⊢
      · rw [if_neg hp] at h ⊢
        exact ih h

theorem lookupFC_append_self {m : List (Str × Str)} {t c : Str}
    (h : lookupFC m t = none) : lookupFC (m ++ [(t, c)]) t = some c := by
  induction m with
  | nil => simp [lookupFC, List.find?_cons]
  | cons p rest ih =>
      rw [List.cons_append, lookupFC_cons] at *
      by_cases hp : p.1 = t
      · rw [if_pos hp] at h
        exact absurd h (by simp)
      · rw [if_neg hp] at h ⊢
        exact ih h

theorem lookupFC_append_other {m : List (Str × Str)} {t k c : Str}
    (hk : k ≠ t) : lookupFC (m ++ [(k, c)]) t = lookupFC m t := by
  induction m with
  | nil => simp [lookupFC, List.find?_cons, hk]
  | cons p rest ih =>
      rw [List.cons_append, lookupFC_cons, lookupFC_cons]
      by_cases hp : p.1 = t
      · rw [if_pos hp, if_pos hp]
      · rw [if_neg hp, if_neg hp]
        exact ih

theorem fcMember_eq_false_iff {m : List (Str × Str)} {t : Str} :
    fcMember m t = false ↔ lookupFC m t = none := by
  induction m with
  | nil => simp [fcMember, lookupFC]
  | cons p rest ih =>
      rw [lookupFC_cons]
      by_cases hp : p.1 = t
      · simp [fcMember, List.any_cons, hp]
      · simp only [fcMember, List.any_cons] at ih ⊢
        rw [if_neg hp]
        simp only [Bool.or_eq_false_iff]
        constructor
        · intro hh
          exact ih.mp hh.2
        · intro hh
          exact ⟨by simpa using hp, ih.mpr hh⟩

end ExtractTerms

namespace ExtractTerms

theorem stepTerm_of_bad {nfkc : Str → Str} {company text raw : Str}
    (st : List (Str × Nat) × List (Str × Str))
    (hbad : looksBad nfkc (normalizeTerm nfkc raw) company = true) :
    stepTerm nfkc company text st raw = st := by
  simp only [stepTerm, if_pos hbad]

theorem stepTerm_lookup_preserve {nfkc : Str → Str} {company text raw : Str}
    {st : List (Str × Nat) × List (Str × Str)} {t v : Str}
    (hl : lookupFC st.2 t = some v) :
    lookupFC (stepTerm nfkc company text st raw).2 t = some v := by
  simp only [stepTerm]
  split_ifs with hbad hmem
  · exact hl
  · exact hl
  · rcases hctx : extractContext text (normalizeTerm nfkc raw) with _ | c
    · exact hl
    · by_cases hc : c = []
      · simp only [hc, ne_eq, not_true_eq_false, if_false]
        exact hl
      · simp only [ne_eq, hc, not_false_eq_true, if_true]
        exact lookupFC_append_left hl

theorem stepTerm_lookup_other {nfkc : Str → Str} {company text raw : Str}
    (st : List (Str × Nat) × List (Str × Str)) {t : Str}
    (hne : normalizeTerm nfkc raw ≠ t) :
    lookupFC (stepTerm nfkc company text st raw).2 t = lookupFC st.2 t := by
  simp only [stepTerm]
  split_ifs with hbad hmem
  · rfl
  · rfl
  · rcases hctx : extractContext text (normalizeTerm nfkc raw) with _ | c
    · rfl
    · by_cases hc : c = []
      · simp only [hc, ne_eq, not_true_eq_false, if_false]
      · simp only [ne_eq, hc, not_false_eq_true, if_true]
        exact lookupFC_append_other hne

theorem stepTerm_lookup_store {nfkc : Str → Str} {company text raw : Str}
    {st : List (Str × Nat) × List (Str × Str)} {t : Str}
    (hl : lookupFC st.2 t = none)
    (hbad : looksBad nfkc (normalizeTerm nfkc raw) company = false)
    (hterm : normalizeTerm nfkc raw = t) :
    lookupFC (stepTerm nfkc company text st raw).2 t = ctxValid text t := by
  rw [hterm] at hbad
  simp only [stepTerm, hterm]
  rw [if_neg (by simp [hbad]), if_neg (by rw [fcMember_eq_false_iff.mpr hl]; simp)]
  unfold ctxValid
  rcases hctx : extractContext text t with _ | c
  · exact hl
  · by_cases hc : c = []
    · simp only [hc, ne_eq, not_true_eq_false, if_false]
      exact hl
    · simp only [ne_eq, hc, not_false_eq_true, if_true]
      exact lookupFC_append_self hl

end ExtractTerms

namespace ExtractTerms

theorem foldl_stepTerm_preserve {nfkc : Str → Str} {company text : Str} {t v : Str} :
    ∀ (raws : List Str) (st : List (Str × Nat) × List (Str × Str)),
      lookupFC st.2 t = some v →
      lookupFC ((raws.foldl (stepTerm nfkc company text) st)).2 t = some v := by
  intro raws
  induction raws with
  | nil => intro st hl; exact hl
  | cons r rs ih =>
      intro st hl
      rw [List.foldl_cons]
      exact ih _ (stepTerm_lookup_preserve hl)

theorem foldl_stepTerm_lookup (nfkc : Str → Str) (company text : Str) (t : Str) :
    ∀ (raws : List Str) (st : List (Str × Nat) × List (Str × Str)),
      lookupFC st.2 t = none →
      lookupFC ((raws.foldl (stepTerm nfkc company text) st)).2 t
        = (if t ∈ acceptedOccs nfkc company raws then ctxValid text t else none) := by
  intro raws
  induction raws with
  | nil => intro st hl; simpa [acceptedOccs] using hl
  | cons r rs ih =>
      intro st hl
      rw [List.foldl_cons]
      by_cases hbad : looksBad nfkc (normalizeTerm nfkc r) company = true
      · rw [stepTerm_of_bad st hbad, ih st hl]
        have hocc : acceptedOccs nfkc company (r :: rs) = acceptedOccs nfkc company rs := by
          simp [acceptedOccs, List.filterMap_cons, hbad]
        rw [hocc]
      · rw [Bool.not_eq_true] at hbad
        have hocc : acceptedOccs nfkc company (r :: rs)
            = normalizeTerm nfkc r :: acceptedOccs nfkc company rs := by
          simp [acceptedOccs, List.filterMap_cons, hbad]
        by_cases hterm : normalizeTerm nfkc r = t
        · have hstore := @stepTerm_lookup_store nfkc company text r st t hl hbad hterm
          rw [hterm] at hocc
          rcases hcv : ctxValid text t with _ | c
          · rw [hcv] at hstore
            rw [ih _ hstore, hocc, if_pos (List.mem_cons_self t _), hcv]
            split_ifs <;> rfl
          · rw [hcv] at hstore
            rw [foldl_stepTerm_preserve rs _ hstore, hocc,
              if_pos (List.mem_cons_self t _)]
        · have hother := @stepTerm_lookup_other nfkc company text r st t hterm
          have hl' : lookupFC (stepTerm nfkc company text st r).2 t = none := by
            rw [hother]; exact hl
          rw [ih _ hl', hocc]
          have hmemiff : t ∈ normalizeTerm nfkc r :: acceptedOccs nfkc company rs
              ↔ t ∈ acceptedOccs nfkc company rs := by
            rw [List.mem_cons]
            constructor
            · rintro (rfl | h)
              · exact absurd rfl hterm
              · exact h
            · exact Or.inr
          by_cases hm : t ∈ acceptedOccs nfkc company rs
          · rw [if_pos hm, if_pos (hmemiff.mpr hm)]
          · rw [if_neg hm, if_neg (fun hh => hm (hmemiff.mp hh))]

end ExtractTerms

namespace ExtractTerms

theorem stepPage_lookup_preserve {nfkc : Str → Str} {company : Str} {pg : Page}
    {st : List (Str × Nat) × List (Str × Str)} {t v : Str}
    (hl : lookupFC st.2 t = some v) :
    lookupFC (stepPage nfkc company st pg).2 t = some v := by
  unfold stepPage
  split_ifs with h
  · exact hl
  · exact foldl_stepTerm_preserve _ _ hl

theorem foldl_stepPage_preserve {nfkc : Str → Str} {company : Str} {t v : Str} :
    ∀ (pages : List Page) (st : List (Str × Nat) × List (Str × Str)),
      lookupFC st.2 t = some v →
      lookupFC ((pages.foldl (stepPage nfkc company) st)).2 t = some v := by
  intro pages
  induction pages with
  | nil => intro st hl; exact hl
  | cons pg ps ih =>
      intro st hl
      rw [List.foldl_cons]
      exact ih _ (stepPage_lookup_preserve hl)

theorem stepPage_lookup_none {nfkc : Str → Str} {company : Str} {pg : Page}
    {st : List (Str × Nat) × List (Str × Str)} {t : Str}
    (hl : lookupFC st.2 t = none) :
    lookupFC (stepPage nfkc company st pg).2 t
      = if t ∈ pageOccs nfkc company pg then ctxValid pg.text t else none := by
  by_cases h : pg.text = []
  · rw [show stepPage nfkc company st pg = st from by simp [stepPage, h]]
    rw [show pageOccs nfkc company pg = [] from by simp [pageOccs, h]]
    simpa using hl
  · rw [show stepPage nfkc company st pg
        = (extractCandidates pg.tokens).foldl (stepTerm nfkc company pg.text) st
      from by simp [stepPage, h]]
    rw [show pageOccs nfkc company pg
        = acceptedOccs nfkc company (extractCandidates pg.tokens)
      from by simp [pageOccs, h]]
    exact foldl_stepTerm_lookup nfkc company pg.text t (extractCandidates pg.tokens) st hl

theorem foldl_pages_lookup (nfkc : Str → Str) (company : Str) (t : Str) :
    ∀ (pages : List Page) (st : List (Str × Nat) × List (Str × Str)),
      lookupFC st.2 t = none →
      lookupFC ((pages.foldl (stepPage nfkc company) st)).2 t
        = ((pages.filter (fun pg => t ∈ pageOccs nfkc company pg)).filterMap
            (fun pg => ctxValid pg.text t)).head? := by
  intro pages
  induction pages with
  | nil => intro st hl; simpa using hl
  | cons pg ps ih =>
      intro st hl
      rw [List.foldl_cons]
      have hstep := @stepPage_lookup_none nfkc company pg st t hl
      by_cases hm : t ∈ pageOccs nfkc company pg
      · rw [if_pos hm] at hstep
        rcases hcv : ctxValid pg.text t with _ | c
        · rw [hcv] at hstep
          rw [ih _ hstep]
          simp [List.filter_cons, hm, List.filterMap_cons, hcv]
        · rw [hcv] at hstep
          rw [foldl_stepPage_preserve ps _ hstep]
          simp [List.filter_cons, hm, List.filterMap_cons, hcv]
      · rw [if_neg hm] at hstep
        rw [ih _ hstep]
        simp [List.filter_cons, hm]

end ExtractTerms

/-- Page used by the C7 counterexample whose context extraction fails (the
trimmed window "xy" is shorter than 6 characters). -/
def c7Page1 : ExtractTerms.Page :=
  ⟨("xy").data, [⟨("xy").data, ("名詞").data, ("一般").data⟩]⟩

/-- Later page of the C7 counterexample whose context extraction succeeds. -/
def c7Page2 : ExtractTerms.Page :=
  ⟨("当社のxyは増加しました。").data, [⟨("xy").data, ("名詞").data, ("一般").data⟩]⟩

/-- C7 counterexample: the term xy has its first accepted occurrence on the
first page, whose context extraction yields nothing; yet after processing
both pages a context is stored, taken from the second page's occurrence, so
the captured snippet does not come from the first occurrence. -/
theorem c7_counterexample :
    ("xy").data ∈ ExtractTerms.pageOccs (fun s : Str => s) (("テスト").data) c7Page1
    ∧ ExtractTerms.extractContext c7Page1.text (("xy").data) = none
    ∧ ExtractTerms.lookupFC (([c7Page1, c7Page2].foldl
          (ExtractTerms.stepPage (fun s : Str => s) (("テスト").data)) ([], [])).2)
        (("xy").data)
      = ExtractTerms.ctxValid c7Page2.text (("xy").data)
    ∧ (ExtractTerms.ctxValid c7Page2.text (("xy").data)).isSome = true := by
  decide

/-- C7 (amended): once a context is stored for a term it is never
overwritten by later pages; and the context stored for a term by the
per-page loop is the one extracted from the first page (in processing
order) that contributes an accepted occurrence of the term and whose
context extraction yields a truthy snippet. -/
theorem c7_first_valid_context (nfkc : Str → Str) (company : Str)
    (pages : List ExtractTerms.Page) (t : Str) :
    (∀ (st : List (Str × Nat) × List (Str × Str)) (v : Str),
        ExtractTerms.lookupFC st.2 t = some v →
        ExtractTerms.lookupFC
          ((pages.foldl (ExtractTerms.stepPage nfkc company) st)).2 t = some v)
    ∧ ExtractTerms.lookupFC
        ((pages.foldl (ExtractTerms.stepPage nfkc company) ([], [])).2) t
        = ((pages.filter (fun pg => t ∈ ExtractTerms.pageOccs nfkc company pg)).filterMap
            (fun pg => ExtractTerms.ctxValid pg.text t)).head? :=
  ⟨fun st v hl => ExtractTerms.foldl_stepPage_preserve pages st hl,
   ExtractTerms.foldl_pages_lookup nfkc company t pages ([], []) rfl⟩

/-- Witness for C7 at one stored context and a one-page batch. -/
theorem c7_first_valid_context_witness :
    (ExtractTerms.lookupFC
        ((([] : List (Str × Nat)),
          [((("xy").data : Str), (("既存の文脈です。").data : Str))]) :
          List (Str × Nat) × List (Str × Str)).2 (("xy").data)
      = some (("既存の文脈です。").data))
    ∧ ExtractTerms.lookupFC
        (([c7Page2].foldl
          (ExtractTerms.stepPage (fun s : Str => s) (("テスト").data))
          ((([] : List (Str × Nat)),
            [((("xy").data : Str), (("既存の文脈です。").data : Str))]))).2)
        (("xy").data)
      = some (("既存の文脈です。").data)
    ∧ ExtractTerms.lookupFC
        (([c7Page2].foldl
          (ExtractTerms.stepPage (fun s : Str => s) (("テスト").data)) ([], [])).2)
        (("xy").data)
      = (([c7Page2].filter
            (fun pg => ("xy").data ∈ ExtractTerms.pageOccs (fun s : Str => s)
              (("テスト").data) pg)).filterMap
          (fun pg => ExtractTerms.ctxValid pg.text (("xy").data))).head? :=
  ⟨by decide,
   (c7_first_valid_context (fun s : Str => s) (("テスト").data) [c7Page2]
      (("xy").data)).1 _ _ (by decide),
   (c7_first_valid_context (fun s : Str => s) (("テスト").data) [c7Page2]
      (("xy").data)).2⟩

namespace Batch

theorem microfixCompanyRun_missing {a : ArtifactDir}
    (h : a.wordTxt = none ∨ a.jsonl = none) :
    (microfixCompanyRun a).isOk = false := by
  unfold microfixCompanyRun
  rcases h with h | h
  · rw [h]
    rfl
  · rw [h]
    cases a.wordTxt <;> rfl

theorem runAll_isOk_false {l : List ArtifactDir}
    (h : ∃ a ∈ l, (microfixCompanyRun a).isOk = false) :
    (runAll l).isOk = false := by
  induction l with
  | nil => obtain ⟨a, ha, -⟩ := h; exact absurd ha (by simp)
  | cons d rest ih =>
      unfold runAll
      rcases hd : microfixCompanyRun d with e | r
      · rfl
      · obtain ⟨a, ha, hfail⟩ := h
        rcases List.mem_cons.mp ha with rfl | ha'
        · rw [hd] at hfail
          exact absurd hfail (by simp [Except.isOk, Except.toBool])
        · have := ih ⟨a, ha', hfail⟩
          rcases hrest : runAll rest with e | rs
          · rfl
          · rw [hrest] at this
            exact absurd this (by simp [Except.isOk, Except.toBool])

end Batch

/-- C8: missing-root and missing-artifact conditions are fatal while a
text-less document is a note: pass 1 exits with an error when its resources
root is absent or holds no company directories (producing no per-company
results); pass 2 exits with an error when its output root is absent or
empty, and aborts the whole batch (no result list, no per-company recovery)
as soon as some listed company lacks its persisted `wordList.txt` or
`wordList.jsonl`; and inside pass 1 a document with no extractable text
only appends a note and its info record, after which processing continues
with the remaining documents on an otherwise unchanged state. -/
theorem c8_error_policy :
    (∀ nfkc : Str → Str,
      Batch.mainExtract nfkc none
        = Except.error (("resourcesが見つかりません").data))
    ∧ (∀ nfkc : Str → Str,
      Batch.mainExtract nfkc (some [])
        = Except.error (("企業フォルダが見つかりません").data))
    ∧ Batch.mainMicrofix none = Except.error (("outputが見つかりません").data)
    ∧ Batch.mainMicrofix (some [])
        = Except.error (("企業ディレクトリがありません").data)
    ∧ (∀ (dirs : List Batch.ArtifactDir) (a : Batch.ArtifactDir),
        a ∈ dirs → (a.wordTxt = none ∨ a.jsonl = none) →
        (Batch.mainMicrofix (some dirs)).isOk = false)
    ∧ (∀ (nfkc : Str → Str) (company : Str) (st : ExtractTerms.CState)
        (d : ExtractTerms.Doc) (rest : List ExtractTerms.Doc),
        ExtractTerms.pagesWithText d = 0 →
        (d :: rest).foldl (ExtractTerms.stepDoc nfkc company) st
          = rest.foldl (ExtractTerms.stepDoc nfkc company)
              { st with infos := st.infos ++ [ExtractTerms.docInfo d],
                        notes := st.notes ++ [ExtractTerms.unextractableNote d] }) := by
  refine ⟨fun _ => rfl, fun _ => rfl, rfl, rfl, ?_, ?_⟩
  · intro dirs a ha hmiss
    simp only [Batch.mainMicrofix]
    have hne : List.insertionSort Batch.nameLE' dirs ≠ [] := by
      intro he
      have hlen := List.length_insertionSort Batch.nameLE' dirs
      rw [he] at hlen
      simp only [List.length_nil] at hlen
      cases dirs with
      | nil => exact absurd ha (by simp)
      | cons x xs => simp at hlen
    rw [if_neg hne]
    refine Batch.runAll_isOk_false ⟨a, ?_, Batch.microfixCompanyRun_missing hmiss⟩
    rw [List.mem_insertionSort]
    exact ha
  · intro nfkc company st d rest h
    rw [List.foldl_cons]
    congr 1
    simp only [ExtractTerms.stepDoc]
    rw [if_pos h]

/-- Artifact directory used by the C8 witness: both artifacts missing. -/
def c8Dir : Batch.ArtifactDir := ⟨("1_A").data, none, none⟩

/-- Document used by the C8 witness: no pages at all. -/
def c8Doc : ExtractTerms.Doc := ⟨("s.pdf").data, []⟩

/-- Witness for C8: a batch holding a company without artifacts fails as a
whole, and a text-less document only adds a note and its info record. -/
theorem c8_error_policy_witness :
    c8Dir ∈ [c8Dir]
    ∧ (c8Dir.wordTxt = none ∨ c8Dir.jsonl = none)
    ∧ (Batch.mainMicrofix (some [c8Dir])).isOk = false
    ∧ ExtractTerms.pagesWithText c8Doc = 0
    ∧ ([c8Doc].foldl (ExtractTerms.stepDoc (fun s : Str => s) (("A").data))
          ExtractTerms.emptyCState
        = ([] : List ExtractTerms.Doc).foldl
            (ExtractTerms.stepDoc (fun s : Str => s) (("A").data))
            { ExtractTerms.emptyCState with
                infos := ExtractTerms.emptyCState.infos ++ [ExtractTerms.docInfo c8Doc],
                notes := ExtractTerms.emptyCState.notes
                  ++ [ExtractTerms.unextractableNote c8Doc] }) :=
  ⟨by decide, Or.inl rfl,
   c8_error_policy.2.2.2.2.1 [c8Dir] c8Dir (by decide) (Or.inl rfl),
   by decide,
   c8_error_policy.2.2.2.2.2 (fun s : Str => s) (("A").data)
     ExtractTerms.emptyCState c8Doc [] (by decide)⟩
